import Mathlib

/-!
Structural verification of `dumpclass` (java-class-extract, `main.c`).

The program scans a byte buffer for the class-file magic `0xCAFEBABE`, measures
each candidate with a structural walk of the class-file grammar and saves the
measured byte range.  This file embeds the scanning and measuring functions of
`main.c` and proves properties of them.

Conventions of the embedding:

* the mapped input is a `List u1`; a pointer into it is its offset (`Nat`) from
  the start of the buffer, and `end` is `buf.length`;
* C's `u1`, `u2`, `u4` are `Fin 256`, `Fin 65536`, `Fin 4294967296`, whose
  arithmetic wraps as the machine types do;
* a function taking `const u1 **data` returns a `Res`, which carries the value
  returned together with the cursor it leaves behind, also when it fails;
* a load from the buffer is `List` indexing into an `Option`; a load outside
  the buffer makes the result `Res.oob`.
-/

namespace JavaClassExtract

/-! ## The program -/

/-- The type `u1` of `main.c`: one byte. -/
abbrev u1 := Fin 256

/-- The type `u2` of `main.c`: an unsigned 16-bit integer. -/
abbrev u2 := Fin 65536

/-- The type `u4` of `main.c`: an unsigned 32-bit integer. -/
abbrev u4 := Fin 4294967296

/-- The constant `MAX_CLASS_SIZE` of `main.c`. -/
def MAX_CLASS_SIZE : Nat := 10 * 1024 * 1024

/-- Result of a function of `main.c` that works on a cursor: `ok val cur` is a
normal return of `val` with the cursor left at `cur`; `fail cur` is `return -1`
with the cursor left at `cur`; `oob` is a load outside the buffer. -/
inductive Res (α : Type) where
  | ok (val : α) (cur : Nat) : Res α
  | fail (cur : Nat) : Res α
  | oob : Res α
  deriving DecidableEq, Repr

/-- Sequencing: continue with the value and the cursor of a normal return,
propagate `return -1` and out-of-bounds loads. -/
def Res.bind {α β : Type} : Res α → (α → Nat → Res β) → Res β
  | Res.ok v c, f => f v c
  | Res.fail c, _ => Res.fail c
  | Res.oob, _ => Res.oob

/-- The function `_read_u1`: load the byte under the cursor and step over it. -/
def _read_u1 (buf : List u1) (data : Nat) : Option (u1 × Nat) :=
  match buf[data]? with
  | some b => some (b, data + 1)
  | none => none

/-- The function `_read_u2`: load a big-endian 16-bit value, advance by 2. -/
def _read_u2 (buf : List u1) (data : Nat) : Option (u2 × Nat) :=
  match buf[data]?, buf[data + 1]? with
  | some b0, some b1 => some (Fin.ofNat (b0.val * 256 + b1.val), data + 2)
  | _, _ => none

/-- The function `_read_u4`: load a big-endian 32-bit value, advance by 4. -/
def _read_u4 (buf : List u1) (data : Nat) : Option (u4 × Nat) :=
  match buf[data]?, buf[data + 1]?, buf[data + 2]?, buf[data + 3]? with
  | some b0, some b1, some b2, some b3 =>
    some (Fin.ofNat (((b0.val * 256 + b1.val) * 256 + b2.val) * 256 + b3.val), data + 4)
  | _, _, _, _ => none

/-- The macro `read_u1`: `if (*data > end - 1) return -1; val = _read_u1(data)`. -/
def read_u1 (buf : List u1) (data : Nat) : Res u1 :=
  if (data : Int) > (buf.length : Int) - 1 then Res.fail data
  else match _read_u1 buf data with
    | some (val, data) => Res.ok val data
    | none => Res.oob

/-- The macro `read_u2`: `if (*data > end - 2) return -1; val = _read_u2(data)`. -/
def read_u2 (buf : List u1) (data : Nat) : Res u2 :=
  if (data : Int) > (buf.length : Int) - 2 then Res.fail data
  else match _read_u2 buf data with
    | some (val, data) => Res.ok val data
    | none => Res.oob

/-- The macro `read_u4`: `if (*data > end - 4) return -1; val = _read_u4(data)`. -/
def read_u4 (buf : List u1) (data : Nat) : Res u4 :=
  if (data : Int) > (buf.length : Int) - 4 then Res.fail data
  else match _read_u4 buf data with
    | some (val, data) => Res.ok val data
    | none => Res.oob

/-- The table `sizes` of `read_cp_info`, indexed by tag. -/
def sizes : List Nat := [0, 0, 0, 4, 4, 8, 8, 2, 2, 4, 4, 4, 4, 0, 0, 3, 2, 4, 4, 2, 2]

/-- The function `read_cp_info`: step over the body of one constant-pool entry
whose tag byte has been read. -/
def read_cp_info (buf : List u1) (data : Nat) (tag : u1) : Res Nat :=
  let start := data
  if tag = 1 then
    (read_u2 buf data).bind fun length data =>
    let data := data + length.val
    Res.ok (data - start) data
  else
    if tag.val ≥ sizes.length ∨ sizes.getD tag.val 0 = 0 then Res.fail data
    else
      let data := data + sizes.getD tag.val 0
      Res.ok (data - start) data

/-- The function `read_attribute_info`: step over one attribute. -/
def read_attribute_info (buf : List u1) (data : Nat) : Res Nat :=
  let start := data
  let data := data + 2
  (read_u4 buf data).bind fun attribute_length data =>
  let data := data + attribute_length.val
  Res.ok (data - start) data

/-- The loop `for (u2 i = 0; i < attributes_count; i++)` over
`read_attribute_info`, which `read_field_info` and `read_class` both contain,
from the value `i` of its counter. -/
def attributes_loop (buf : List u1) (attributes_count : u2) (i : u2) (data : Nat) : Res Unit :=
  if i < attributes_count then
    match read_attribute_info buf data with
    | Res.ok _ data => attributes_loop buf attributes_count (i + 1) data
    | Res.fail data => Res.fail data
    | Res.oob => Res.oob
  else Res.ok () data
termination_by attributes_count.val - i.val
decreasing_by
  rename_i h
  have h1 : i.val < attributes_count.val := h
  have h3 : (i + 1).val = i.val + 1 := by
    rw [Fin.val_add]
    show (i.val + 1) % 65536 = i.val + 1
    omega
  omega

/-- The function `read_field_info`: step over one field or method record. -/
def read_field_info (buf : List u1) (data : Nat) : Res Nat :=
  let start := data
  let data := data + 6
  (read_u2 buf data).bind fun attributes_count data =>
  (attributes_loop buf attributes_count 0 data).bind fun _ data =>
  Res.ok (data - start) data

/-- The constant-pool loop of `read_class`,
`for (u2 i = 0; i < constant_pool_count - 1; i++)`, from the value `i` of its
counter; the comparison is made in `int`, the two increments in `u2`. -/
def constant_pool_loop (buf : List u1) (constant_pool_count : u2) (i : u2) (data : Nat) :
    Res Unit :=
  if (i.val : Int) < (constant_pool_count.val : Int) - 1 then
    match read_u1 buf data with
    | Res.ok tag data =>
      match read_cp_info buf data tag with
      | Res.ok _ data =>
        constant_pool_loop buf constant_pool_count
          (i + (if tag = 5 ∨ tag = 6 then 1 else 0) + 1) data
      | Res.fail data => Res.fail data
      | Res.oob => Res.oob
    | Res.fail data => Res.fail data
    | Res.oob => Res.oob
  else Res.ok () data
termination_by constant_pool_count.val - i.val
decreasing_by
  rename_i h
  by_cases hw : tag = 5 ∨ tag = 6
  · have h3 : (i + 1 + 1 : u2).val = i.val + 2 := by
      rw [Fin.val_add, Fin.val_add]
      show ((i.val + 1) % 65536 + 1) % 65536 = i.val + 2
      omega
    simp only [dif_pos hw, h3]
    omega
  · have h3 : (i + 0 + 1 : u2).val = i.val + 1 := by
      rw [Fin.val_add, Fin.val_add]
      show ((i.val + 0) % 65536 + 1) % 65536 = i.val + 1
      omega
    simp only [dif_neg hw, h3]
    omega

/-- The loop `for (u2 j = 0; j < field_or_method_count; j++)` of `read_class`
over `read_field_info`, from the value `j` of its counter. -/
def fields_loop (buf : List u1) (field_or_method_count : u2) (j : u2) (data : Nat) : Res Unit :=
  if j < field_or_method_count then
    match read_field_info buf data with
    | Res.ok _ data => fields_loop buf field_or_method_count (j + 1) data
    | Res.fail data => Res.fail data
    | Res.oob => Res.oob
  else Res.ok () data
termination_by field_or_method_count.val - j.val
decreasing_by
  rename_i h
  have h1 : j.val < field_or_method_count.val := h
  have h3 : (j + 1).val = j.val + 1 := by
    rw [Fin.val_add]
    show (j.val + 1) % 65536 = j.val + 1
    omega
  omega

/-- The function `read_class`: walk a candidate class file that starts at
`data` and return the number of bytes it spans.  The loop
`for (u1 i = 0; i < 2; i++)` is written out as its two passes. -/
def read_class (buf : List u1) (data : Nat) : Res Nat :=
  let start := data
  let data := data + 8
  (read_u2 buf data).bind fun constant_pool_count data =>
  if constant_pool_count = 0 then Res.fail data
  else
    (constant_pool_loop buf constant_pool_count 0 data).bind fun _ data =>
    let data := data + 6
    (read_u2 buf data).bind fun interfaces_count data =>
    let data := data + 2 * interfaces_count.val
    (read_u2 buf data).bind fun field_or_method_count data =>
    (fields_loop buf field_or_method_count 0 data).bind fun _ data =>
    (read_u2 buf data).bind fun field_or_method_count data =>
    (fields_loop buf field_or_method_count 0 data).bind fun _ data =>
    (read_u2 buf data).bind fun attributes_count data =>
    (attributes_loop buf attributes_count 0 data).bind fun _ data =>
    Res.ok (data - start) data

/-- The function `find_next_class` from the value `data` of its cursor, `start`
being the value the cursor had on entry: one turn of `while (1)`, with the
macro `read_u4` written out, and on a mismatch the rest of the loop from
`data - 3`. -/
def find_next_class_loop (buf : List u1) (start : Nat) (data : Nat) : Res Nat :=
  if (data : Int) > (buf.length : Int) - 4 then Res.fail data
  else match hr : _read_u4 buf data with
    | some (magic, data1) =>
      if magic = 0xCAFEBABE then
        let data2 := data1 - 4
        Res.ok (data2 - start) data2
      else find_next_class_loop buf start (data1 - 3)
    | none => Res.oob
termination_by buf.length - data
decreasing_by
  rename_i hlen _
  have h1 : data1 = data + 4 := by
    unfold _read_u4 at hr
    split at hr
    · cases hr
      rfl
    · cases hr
  omega

/-- The function `find_next_class`: move the cursor to the next occurrence of
the magic value. -/
def find_next_class (buf : List u1) (data : Nat) : Res Nat :=
  find_next_class_loop buf data data

/-- The function `write_file` as `dump` calls it: the `len` bytes of the memory
`mem` from offset `data` on, which `fwrite` copies into the file. -/
def write_file (mem : List u1) (data : Nat) (len : Nat) : List u1 :=
  (mem.drop data).take len

/-- One call of `write_file` made by `dump`: the number `num` in the file name
`num.class`, the offset `off` of the first byte written (`data - start`) and
the number `size` of bytes written (`class_size`). -/
structure Artifact where
  num : Nat
  off : Nat
  size : Nat
  deriving DecidableEq, Repr

/-- The loop of `dump` from the values `data` of its cursor and `num_found` of
its counter: the calls of `write_file` it makes, in order.  `class_size >= 0`
is the normal return of `read_class`; the list ends at an out-of-bounds load,
which never happens (`find_next_class_ne_oob`, `read_class_ne_oob`). -/
def dump_loop (buf : List u1) (data : Nat) (num_found : Nat) : List Artifact :=
  match hfind : find_next_class buf data with
  | Res.ok _ data1 =>
    match read_class buf data1 with
    | Res.ok class_size _ =>
      if class_size ≤ MAX_CLASS_SIZE then
        Artifact.mk num_found data1 class_size :: dump_loop buf (data1 + 1) (num_found + 1)
      else dump_loop buf (data1 + 1) num_found
    | Res.fail _ => dump_loop buf (data1 + 1) num_found
    | Res.oob => []
  | Res.fail _ => []
  | Res.oob => []
termination_by buf.length - data
decreasing_by
  all_goals
    have key : ∀ n start d r c, buf.length - d = n →
        find_next_class_loop buf start d = Res.ok r c → d ≤ c ∧ c < buf.length := by
      intro n
      induction n using Nat.strong_induction_on with
      | _ n ih =>
        intro start d r c hn hc
        rw [find_next_class_loop] at hc
        split at hc
        · cases hc
        · split at hc
          · rename_i hlen _ magic data1 hr
            have h1 : data1 = d + 4 := by
              unfold _read_u4 at hr
              split at hr
              · cases hr
                rfl
              · cases hr
            split at hc
            · cases hc
              omega
            · have := ih (buf.length - (data1 - 3)) (by omega) start (data1 - 3) r c rfl hc
              omega
          · cases hc
    have := key _ data data _ _ rfl hfind
    omega

/-- The function `dump`: the calls of `write_file` made on a buffer. -/
def dump (buf : List u1) : List Artifact :=
  dump_loop buf 0 0

/-! ## Notions used to state the properties -/

/-- The byte at index `i` of the buffer as a number, `0` outside the buffer. -/
def byteAt (buf : List u1) (i : Nat) : Nat := (buf.getD i 0).val

/-- The big-endian 16-bit value of the two bytes at `p` and `p + 1`. -/
def be16 (buf : List u1) (p : Nat) : Nat := byteAt buf p * 256 + byteAt buf (p + 1)

/-- The big-endian 32-bit value of the four bytes at `p .. p + 3`. -/
def be32 (buf : List u1) (p : Nat) : Nat :=
  ((byteAt buf p * 256 + byteAt buf (p + 1)) * 256 + byteAt buf (p + 2)) * 256 + byteAt buf (p + 3)

/-- Run `f` on the cursor `n` times in sequence, stopping at the first result
that is not a normal return. -/
def iter (f : Nat → Res Nat) : Nat → Nat → Res Unit
  | 0, p => Res.ok () p
  | n + 1, p =>
    match f p with
    | Res.ok _ c => iter f n c
    | Res.fail c => Res.fail c
    | Res.oob => Res.oob

/-- The `n` bytes of `buf` from `p` on, as far as they lie inside `buf`, are
also the bytes of `buf2` from `q` on. -/
def Agree (buf : List u1) (p : Nat) (buf2 : List u1) (q : Nat) (n : Nat) : Prop :=
  ∀ j, j < n → p + j < buf.length → buf2[q + j]? = buf[p + j]?

/-- A cursor function is framed when a normal return moves the cursor forward
and depends only on the bytes between the old and the new cursor: it returns
the same value, with the same advance, on every buffer and cursor holding
those bytes. -/
def Framed {α : Type} (f : List u1 → Nat → Res α) : Prop :=
  ∀ buf p v c, f buf p = Res.ok v c →
    p ≤ c ∧ ∀ buf2 q, Agree buf p buf2 q (c - p) → f buf2 q = Res.ok v (q + (c - p))

/-- The number of indices of the constant pool an entry with this tag takes:
2 for `CONSTANT_Long` (5) and `CONSTANT_Double` (6), 1 otherwise. -/
def slots (tag : u1) : Nat := if tag = 5 ∨ tag = 6 then 2 else 1

/-- The four bytes at `o .. o + 3` are inside the buffer and are the magic
value `CA FE BA BE`. -/
def magicAt (buf : List u1) (o : Nat) : Prop :=
  buf[o]? = some 0xCA ∧ buf[o + 1]? = some 0xFE ∧ buf[o + 2]? = some 0xBA ∧
    buf[o + 3]? = some 0xBE

instance (buf : List u1) (o : Nat) : Decidable (magicAt buf o) := by
  unfold magicAt
  infer_instance

/-- The measurement of the candidate at offset `o`, when `dump` accepts it: the
magic value is at `o`, `read_class` returns normally there and the length it
returns is at most `MAX_CLASS_SIZE`. -/
def accept (buf : List u1) (o : Nat) : Option (Nat × Nat) :=
  if magicAt buf o then
    match read_class buf o with
    | Res.ok L _ => if L ≤ MAX_CLASS_SIZE then some (o, L) else none
    | _ => none
  else none

/-- The accepted candidates of a buffer as pairs `(o, L)`, by increasing offset
`o` over the offsets with `o + 4 ≤ buf.length`. -/
def candidates (buf : List u1) : List (Nat × Nat) :=
  (List.range (buf.length - 3)).filterMap (accept buf)

/-- Number the pairs of a list from `k` on, as `dump` numbers its files. -/
def number : Nat → List (Nat × Nat) → List Artifact
  | _, [] => []
  | k, (o, L) :: rest => Artifact.mk k o L :: number (k + 1) rest

/-- An attribute of the class-file grammar: a `u2` name index and the bytes of
its body, whose number is stored as a `u4`. -/
structure attribute_info where
  attribute_name_index : u2
  info : List u1

/-- A field or method record of the grammar: three `u2` values and a counted
sequence of attributes. -/
structure field_info where
  access_flags : u2
  name_index : u2
  descriptor_index : u2
  attributes : List attribute_info

/-- A constant-pool entry of the grammar: `CONSTANT_Utf8` (tag 1) with its
bytes, or an entry with another tag and a body of the size the table of
`read_cp_info` gives for the tag. -/
inductive cp_info where
  | utf8 (bytes : List u1) : cp_info
  | fixed (tag : u1) (info : List u1) : cp_info

/-- A class-file structure of the grammar `read_class` walks. -/
structure ClassFile where
  magic : u4
  minor_version : u2
  major_version : u2
  constant_pool : List cp_info
  access_flags : u2
  this_class : u2
  super_class : u2
  interfaces : List u2
  fields : List field_info
  methods : List field_info
  attributes : List attribute_info

/-- The two bytes of a 16-bit value, high-order byte first. -/
def ser_u2 (n : Nat) : List u1 := [Fin.ofNat (n / 256), Fin.ofNat (n % 256)]

/-- The four bytes of a 32-bit value, high-order byte first. -/
def ser_u4 (n : Nat) : List u1 :=
  [Fin.ofNat (n / 16777216), Fin.ofNat (n / 65536 % 256), Fin.ofNat (n / 256 % 256),
    Fin.ofNat (n % 256)]

/-- The serialisations of the elements of a list, one after the other. -/
def ser_list {α : Type} (ser : α → List u1) : List α → List u1
  | [] => []
  | a :: rest => ser a ++ ser_list ser rest

/-- The bytes of an attribute: name index, length of the body, body. -/
def ser_attribute_info (a : attribute_info) : List u1 :=
  ser_u2 a.attribute_name_index.val ++ (ser_u4 a.info.length ++ a.info)

/-- The bytes of a field or method record. -/
def ser_field_info (f : field_info) : List u1 :=
  ser_u2 f.access_flags.val ++ (ser_u2 f.name_index.val ++ (ser_u2 f.descriptor_index.val ++
    (ser_u2 f.attributes.length ++ ser_list ser_attribute_info f.attributes)))

/-- The bytes of a constant-pool entry: the tag byte, then the body. -/
def ser_cp_info : cp_info → List u1
  | cp_info.utf8 bytes => (1 : u1) :: (ser_u2 bytes.length ++ bytes)
  | cp_info.fixed tag info => tag :: info

/-- The tag byte of a constant-pool entry. -/
def cp_info.tag : cp_info → u1
  | cp_info.utf8 _ => 1
  | cp_info.fixed tag _ => tag

/-- The number of constant-pool indices the entries of a list take. -/
def pool_slots : List cp_info → Nat
  | [] => 0
  | e :: rest => slots e.tag + pool_slots rest

/-- The bytes of a class file: the serialisation of the structure in the
order of the grammar, the constant-pool count being one more than the number
of indices its entries take. -/
def serialize (cf : ClassFile) : List u1 :=
  ser_u4 cf.magic.val ++ (ser_u2 cf.minor_version.val ++ (ser_u2 cf.major_version.val ++
  (ser_u2 (pool_slots cf.constant_pool + 1) ++ (ser_list ser_cp_info cf.constant_pool ++
  (ser_u2 cf.access_flags.val ++ (ser_u2 cf.this_class.val ++ (ser_u2 cf.super_class.val ++
  (ser_u2 cf.interfaces.length ++ (ser_list (fun i => ser_u2 i.val) cf.interfaces ++
  (ser_u2 cf.fields.length ++ (ser_list ser_field_info cf.fields ++
  (ser_u2 cf.methods.length ++ (ser_list ser_field_info cf.methods ++
  (ser_u2 cf.attributes.length ++ ser_list ser_attribute_info cf.attributes))))))))))))))

/-- The body of an attribute has a length that fits the `u4` length field. -/
def attribute_info.wf (a : attribute_info) : Prop := a.info.length < 4294967296

/-- The attribute count of a record fits a `u2` and its attributes are well formed. -/
def field_info.wf (f : field_info) : Prop :=
  f.attributes.length < 65536 ∧ ∀ a ∈ f.attributes, a.wf

/-- A `CONSTANT_Utf8` body fits its `u2` length field; an entry with another
tag has a tag of the table with a size that is not zero, and a body of that size. -/
def cp_info.wf : cp_info → Prop
  | cp_info.utf8 bytes => bytes.length < 65536
  | cp_info.fixed tag info =>
    tag ≠ 1 ∧ tag.val < 21 ∧ sizes.getD tag.val 0 ≠ 0 ∧ info.length = sizes.getD tag.val 0

/-- Every count of the structure fits its `u2` field and every part is well formed. -/
def ClassFile.wf (cf : ClassFile) : Prop :=
  pool_slots cf.constant_pool + 1 < 65536 ∧ (∀ e ∈ cf.constant_pool, e.wf) ∧
  cf.interfaces.length < 65536 ∧
  cf.fields.length < 65536 ∧ (∀ f ∈ cf.fields, f.wf) ∧
  cf.methods.length < 65536 ∧ (∀ f ∈ cf.methods, f.wf) ∧
  cf.attributes.length < 65536 ∧ (∀ a ∈ cf.attributes, a.wf)

/-- The bytes `X` stand in `buf` from offset `q` on. -/
def At (buf : List u1) (q : Nat) (X : List u1) : Prop :=
  ∀ j, j < X.length → buf[q + j]? = X[j]?

/-- A buffer has no occurrence of the magic value: at no offset inside it do
the four bytes `CA FE BA BE` begin. -/
def noMagic (buf : List u1) : Prop := ∀ o, o < buf.length → ¬ magicAt buf o

/-- A class-file structure with a constant pool, an interface, a field, a
method and a class attribute, used to instantiate the theorems. -/
def sample_class : ClassFile where
  magic := 0xCAFEBABE
  minor_version := 0
  major_version := 52
  constant_pool := [cp_info.utf8 [65, 66], cp_info.fixed 5 [0, 0, 0, 0, 0, 0, 0, 7],
    cp_info.fixed 7 [0, 1]]
  access_flags := 33
  this_class := 4
  super_class := 0
  interfaces := [4]
  fields := [⟨1, 1, 1, [⟨1, [9, 9, 9]⟩]⟩]
  methods := [⟨1, 1, 1, []⟩]
  attributes := [⟨1, [1, 2]⟩]

/-- The smallest class file: no constant-pool entry, interface, field, method
or attribute. -/
def minimal : List u1 :=
  [0xCA, 0xFE, 0xBA, 0xBE, 0, 0, 0, 52, 0, 1, 0, 33, 0, 0, 0, 0, 0, 0, 0, 0, 0, 0, 0, 0]

/-- A class file cut short: its one class attribute declares a body of 5
bytes, and the buffer ends where the body would begin. -/
def truncated : List u1 :=
  [0xCA, 0xFE, 0xBA, 0xBE, 0, 0, 0, 52, 0, 1, 0, 33, 0, 0, 0, 0, 0, 0, 0, 0, 0, 0, 0, 1,
    0, 0, 0, 0, 0, 5]

instance (a : attribute_info) : Decidable a.wf := by
  unfold attribute_info.wf
  infer_instance

instance (f : field_info) : Decidable f.wf := by
  unfold field_info.wf
  infer_instance

instance (e : cp_info) : Decidable e.wf := by
  cases e with
  | utf8 bytes =>
    unfold cp_info.wf
    infer_instance
  | fixed tag info =>
    unfold cp_info.wf
    infer_instance

instance (cf : ClassFile) : Decidable cf.wf := by
  unfold ClassFile.wf
  infer_instance

instance (buf : List u1) : Decidable (noMagic buf) := by
  unfold noMagic
  infer_instance

/-- A buffer of 30 bytes on which `read_class` returns exactly
`MAX_CLASS_SIZE`: its class attribute declares a body of 10485730 bytes. -/
def at_limit : List u1 :=
  [0xCA, 0xFE, 0xBA, 0xBE, 0, 0, 0, 52, 0, 1, 0, 33, 0, 0, 0, 0, 0, 0, 0, 0, 0, 0, 0, 1,
    0, 0, 0, 0x9F, 0xFF, 0xE2]

/-- A buffer of 30 bytes on which `read_class` returns `MAX_CLASS_SIZE + 1`. -/
def over_limit : List u1 :=
  [0xCA, 0xFE, 0xBA, 0xBE, 0, 0, 0, 52, 0, 1, 0, 33, 0, 0, 0, 0, 0, 0, 0, 0, 0, 0, 0, 1,
    0, 0, 0, 0x9F, 0xFF, 0xE3]

/-- The minimal class file of 24 bytes with the given minor version `m0 m1`,
major version `M0 M1` and six bytes `a0 .. a5` of access flags, this-class and
super-class: magic value, versions, constant-pool count 1, the six bytes, and
the four counts of interfaces, fields, methods and attributes, all 0. -/
def minimal_class (m0 m1 M0 M1 a0 a1 a2 a3 a4 a5 : u1) : List u1 :=
  [0xCA, 0xFE, 0xBA, 0xBE, m0, m1, M0, M1, 0, 1, a0, a1, a2, a3, a4, a5, 0, 0, 0, 0, 0, 0, 0, 0]

/-- The minimal class file as a structure of the grammar. -/
def plain_class : ClassFile where
  magic := 0xCAFEBABE
  minor_version := 0
  major_version := 52
  constant_pool := []
  access_flags := 33
  this_class := 0
  super_class := 0
  interfaces := []
  fields := []
  methods := []
  attributes := []

/-- A class file whose one class attribute has the bytes of the minimal class
file as its body. -/
def nested_class : ClassFile where
  magic := 0xCAFEBABE
  minor_version := 0
  major_version := 52
  constant_pool := []
  access_flags := 33
  this_class := 0
  super_class := 0
  interfaces := []
  fields := []
  methods := []
  attributes := [⟨0, minimal⟩]

/-- The states of the constant-pool loop of `read_class` on a buffer: the
values `i` of the counter and `p` of the cursor at the start of a turn, from
the counter 0 and the cursor `start` on, each turn reading a tag byte and
stepping over the entry with `read_cp_info`. -/
inductive PoolState (buf : List u1) (cpc : u2) (start : Nat) : u2 → Nat → Prop where
  | first : PoolState buf cpc start 0 start
  | next (i : u2) (p : Nat) (v p2 : Nat) :
      PoolState buf cpc start i p → i.val + 1 < cpc.val → p + 1 ≤ buf.length →
      read_cp_info buf (p + 1) (buf.getD p 0) = Res.ok v p2 →
      PoolState buf cpc start
        (i + (if buf.getD p 0 = 5 ∨ buf.getD p 0 = 6 then 1 else 0) + 1) p2

/-- A candidate with constant-pool count 3 whose first entry is the
`CONSTANT_Utf8` entry `"A"` and whose second entry has the tag 2. -/
def bad_tag_class : List u1 :=
  [0xCA, 0xFE, 0xBA, 0xBE, 0, 0, 0, 52, 0, 3, 1, 0, 1, 65, 2, 0, 0, 0, 0]

/-- The sum of the values that `k` calls of `read_attribute_info` in sequence
return from the cursor `p` on, `none` when one of the calls fails. -/
def attributes_sum (buf : List u1) : Nat → Nat → Option Nat
  | 0, _ => some 0
  | k + 1, p =>
    match read_attribute_info buf p with
    | Res.ok v c =>
      match attributes_sum buf k c with
      | some s => some (v + s)
      | none => none
    | _ => none

/-- The number of turns of the loop `attributes_loop` from the value `i` of
its counter: the loop itself, counting 1 for each execution of its body. -/
def attributes_loop_turns (buf : List u1) (attributes_count : u2) (i : u2) (data : Nat) : Nat :=
  if i < attributes_count then
    match read_attribute_info buf data with
    | Res.ok _ data => 1 + attributes_loop_turns buf attributes_count (i + 1) data
    | Res.fail _ => 1
    | Res.oob => 1
  else 0
termination_by attributes_count.val - i.val
decreasing_by
  rename_i h
  have h1 : i.val < attributes_count.val := h
  have h3 : (i + 1).val = i.val + 1 := by
    rw [Fin.val_add]
    show (i.val + 1) % 65536 = i.val + 1
    omega
  omega

/-- The number of turns of the loop `fields_loop` from the value `j` of its
counter. -/
def fields_loop_turns (buf : List u1) (field_or_method_count : u2) (j : u2) (data : Nat) : Nat :=
  if j < field_or_method_count then
    match read_field_info buf data with
    | Res.ok _ data => 1 + fields_loop_turns buf field_or_method_count (j + 1) data
    | Res.fail _ => 1
    | Res.oob => 1
  else 0
termination_by field_or_method_count.val - j.val
decreasing_by
  rename_i h
  have h1 : j.val < field_or_method_count.val := h
  have h3 : (j + 1).val = j.val + 1 := by
    rw [Fin.val_add]
    show (j.val + 1) % 65536 = j.val + 1
    omega
  omega

/-- The number of turns of the constant-pool loop of `read_class` from the
value `i` of its counter. -/
def constant_pool_loop_turns (buf : List u1) (constant_pool_count : u2) (i : u2) (data : Nat) :
    Nat :=
  if (i.val : Int) < (constant_pool_count.val : Int) - 1 then
    match read_u1 buf data with
    | Res.ok tag data =>
      match read_cp_info buf data tag with
      | Res.ok _ data =>
        1 + constant_pool_loop_turns buf constant_pool_count
          (i + (if tag = 5 ∨ tag = 6 then 1 else 0) + 1) data
      | Res.fail _ => 1
      | Res.oob => 1
    | Res.fail _ => 1
    | Res.oob => 1
  else 0
termination_by constant_pool_count.val - i.val
decreasing_by
  rename_i h
  by_cases hw : tag = 5 ∨ tag = 6
  · have h3 : (i + 1 + 1 : u2).val = i.val + 2 := by
      rw [Fin.val_add, Fin.val_add]
      show ((i.val + 1) % 65536 + 1) % 65536 = i.val + 2
      omega
    simp only [dif_pos hw, h3]
    omega
  · have h3 : (i + 0 + 1 : u2).val = i.val + 1 := by
      rw [Fin.val_add, Fin.val_add]
      show ((i.val + 0) % 65536 + 1) % 65536 = i.val + 1
      omega
    simp only [dif_neg hw, h3]
    omega

/-- The offsets `dump` hands to `read_class`, in order, from the value `data`
of its cursor: the loop of `dump` without what it does with the measurement. -/
def dump_measured (buf : List u1) (data : Nat) : List Nat :=
  match hfind : find_next_class buf data with
  | Res.ok _ data1 => data1 :: dump_measured buf (data1 + 1)
  | Res.fail _ => []
  | Res.oob => []
termination_by buf.length - data
decreasing_by
  have key : ∀ n start d r c, buf.length - d = n →
      find_next_class_loop buf start d = Res.ok r c → d ≤ c ∧ c < buf.length := by
    intro n
    induction n using Nat.strong_induction_on with
    | _ n ih =>
      intro start d r c hn hc
      rw [find_next_class_loop] at hc
      split at hc
      · cases hc
      · split at hc
        · rename_i hlen _ magic data1 hr
          have h1 : data1 = d + 4 := by
            unfold _read_u4 at hr
            split at hr
            · cases hr
              rfl
            · cases hr
          split at hc
          · cases hc
            omega
          · have := ih (buf.length - (data1 - 3)) (by omega) start (data1 - 3) r c rfl hc
            omega
        · cases hc
  have := key _ data data _ _ rfl hfind
  omega

/-! ## Properties -/

theorem byteAt_lt (buf : List u1) (i : Nat) : byteAt buf i < 256 := (buf.getD i 0).isLt

theorem be16_lt (buf : List u1) (p : Nat) : be16 buf p < 65536 := by
  have h0 := byteAt_lt buf p
  have h1 := byteAt_lt buf (p + 1)
  unfold be16
  omega

theorem be32_lt (buf : List u1) (p : Nat) : be32 buf p < 4294967296 := by
  have h0 := byteAt_lt buf p
  have h1 := byteAt_lt buf (p + 1)
  have h2 := byteAt_lt buf (p + 2)
  have h3 := byteAt_lt buf (p + 3)
  unfold be32
  omega

theorem getElem?_of_lt (buf : List u1) (i : Nat) (h : i < buf.length) :
    buf[i]? = some (buf.getD i 0) := by
  simp [List.getD, List.getElem?_eq_getElem h]

theorem read_u1_eq (buf : List u1) (p : Nat) :
    read_u1 buf p = if p + 1 ≤ buf.length then Res.ok (buf.getD p 0) (p + 1) else Res.fail p := by
  unfold read_u1
  by_cases h : p + 1 ≤ buf.length
  · have hc : ¬ ((p : Int) > (buf.length : Int) - 1) := by omega
    rw [if_neg hc, if_pos h]
    rw [_read_u1, getElem?_of_lt buf p (by omega)]
  · have hc : (p : Int) > (buf.length : Int) - 1 := by omega
    rw [if_pos hc, if_neg h]

theorem read_u2_eq (buf : List u1) (p : Nat) :
    read_u2 buf p =
      if p + 2 ≤ buf.length then Res.ok (Fin.ofNat (be16 buf p)) (p + 2) else Res.fail p := by
  unfold read_u2
  by_cases h : p + 2 ≤ buf.length
  · have hc : ¬ ((p : Int) > (buf.length : Int) - 2) := by omega
    rw [if_neg hc, if_pos h]
    rw [_read_u2, getElem?_of_lt buf p (by omega), getElem?_of_lt buf (p + 1) (by omega)]
    rfl
  · have hc : (p : Int) > (buf.length : Int) - 2 := by omega
    rw [if_pos hc, if_neg h]

theorem read_u4_eq (buf : List u1) (p : Nat) :
    read_u4 buf p =
      if p + 4 ≤ buf.length then Res.ok (Fin.ofNat (be32 buf p)) (p + 4) else Res.fail p := by
  unfold read_u4
  by_cases h : p + 4 ≤ buf.length
  · have hc : ¬ ((p : Int) > (buf.length : Int) - 4) := by omega
    rw [if_neg hc, if_pos h]
    rw [_read_u4, getElem?_of_lt buf p (by omega), getElem?_of_lt buf (p + 1) (by omega),
      getElem?_of_lt buf (p + 2) (by omega), getElem?_of_lt buf (p + 3) (by omega)]
    rfl
  · have hc : (p : Int) > (buf.length : Int) - 4 := by omega
    rw [if_pos hc, if_neg h]

theorem u2_ofNat_val (n : Nat) (h : n < 65536) : ((Fin.ofNat n : u2)).val = n := by
  show n % 65536 = n
  omega

theorem u4_ofNat_val (n : Nat) (h : n < 4294967296) : ((Fin.ofNat n : u4)).val = n := by
  show n % 4294967296 = n
  omega

theorem u2_val_add_one (i n : u2) (h : i.val < n.val) : (i + 1).val = i.val + 1 := by
  have hn := n.isLt
  rw [Fin.val_add]
  show (i.val + 1) % 65536 = i.val + 1
  omega

theorem read_attribute_info_eq (buf : List u1) (p : Nat) :
    read_attribute_info buf p =
      if p + 6 ≤ buf.length then Res.ok (6 + be32 buf (p + 2)) (p + 6 + be32 buf (p + 2))
      else Res.fail (p + 2) := by
  unfold read_attribute_info
  simp only [read_u4_eq]
  by_cases h : p + 6 ≤ buf.length
  · have h4 : p + 2 + 4 ≤ buf.length := by omega
    rw [if_pos h4, if_pos h]
    simp only [Res.bind, u4_ofNat_val _ (be32_lt buf (p + 2))]
    congr 1
    omega
  · have h4 : ¬ p + 2 + 4 ≤ buf.length := by omega
    rw [if_neg h4, if_neg h]
    rfl

theorem read_cp_info_eq (buf : List u1) (p : Nat) (tag : u1) :
    read_cp_info buf p tag =
      if tag = 1 then
        (if p + 2 ≤ buf.length then Res.ok (2 + be16 buf p) (p + 2 + be16 buf p) else Res.fail p)
      else if 21 ≤ tag.val ∨ sizes.getD tag.val 0 = 0 then Res.fail p
      else Res.ok (sizes.getD tag.val 0) (p + sizes.getD tag.val 0) := by
  unfold read_cp_info
  by_cases h1 : tag = 1
  · simp only [if_pos h1, read_u2_eq]
    by_cases h : p + 2 ≤ buf.length
    · simp only [if_pos h, Res.bind, u2_ofNat_val _ (be16_lt buf p)]
      congr 1
      omega
    · simp only [if_neg h, Res.bind]
  · simp only [if_neg h1]
    have hl : sizes.length = 21 := rfl
    rw [hl]
    by_cases h : 21 ≤ tag.val ∨ sizes.getD tag.val 0 = 0
    · rw [if_pos h, if_pos h]
    · rw [if_neg h, if_neg h]
      simp

theorem attributes_loop_eq_iter (buf : List u1) (count : u2) :
    ∀ (n : Nat) (i : u2) (p : Nat), i.val + n = count.val →
      attributes_loop buf count i p = iter (read_attribute_info buf) n p := by
  intro n
  induction n with
  | zero =>
    intro i p h
    rw [attributes_loop]
    have : ¬ i < count := by
      rw [Fin.lt_def]
      omega
    rw [if_neg this]
    rfl
  | succ n ih =>
    intro i p h
    rw [attributes_loop]
    have hlt : i < count := by
      rw [Fin.lt_def]
      omega
    rw [if_pos hlt, iter]
    have hs := u2_val_add_one i count hlt
    cases hr : read_attribute_info buf p with
    | ok v c => exact ih (i + 1) c (by omega)
    | fail c => rfl
    | oob => rfl

theorem fields_loop_eq_iter (buf : List u1) (count : u2) :
    ∀ (n : Nat) (j : u2) (p : Nat), j.val + n = count.val →
      fields_loop buf count j p = iter (read_field_info buf) n p := by
  intro n
  induction n with
  | zero =>
    intro j p h
    rw [fields_loop]
    have : ¬ j < count := by
      rw [Fin.lt_def]
      omega
    rw [if_neg this]
    rfl
  | succ n ih =>
    intro j p h
    rw [fields_loop]
    have hlt : j < count := by
      rw [Fin.lt_def]
      omega
    rw [if_pos hlt, iter]
    have hs := u2_val_add_one j count hlt
    cases hr : read_field_info buf p with
    | ok v c => exact ih (j + 1) c (by omega)
    | fail c => rfl
    | oob => rfl

theorem bind_ok_iff {α β : Type} (r : Res α) (f : α → Nat → Res β) (w : β) (c : Nat) :
    r.bind f = Res.ok w c ↔ ∃ v c1, r = Res.ok v c1 ∧ f v c1 = Res.ok w c := by
  cases r with
  | ok v c1 =>
    constructor
    · intro h
      exact ⟨v, c1, rfl, h⟩
    · rintro ⟨v1, c2, h1, h2⟩
      cases h1
      exact h2
  | fail c1 =>
    constructor
    · intro h
      cases h
    · rintro ⟨v1, c2, h1, h2⟩
      cases h1
  | oob =>
    constructor
    · intro h
      cases h
    · rintro ⟨v1, c2, h1, h2⟩
      cases h1

theorem read_u2_ok_iff (buf : List u1) (p : Nat) (v : u2) (c : Nat) :
    read_u2 buf p = Res.ok v c ↔ p + 2 ≤ buf.length ∧ v = Fin.ofNat (be16 buf p) ∧ c = p + 2 := by
  rw [read_u2_eq]
  by_cases h : p + 2 ≤ buf.length
  · rw [if_pos h]
    constructor
    · intro h1
      cases h1
      exact ⟨h, rfl, rfl⟩
    · rintro ⟨_, rfl, rfl⟩
      rfl
  · rw [if_neg h]
    constructor
    · intro h1
      cases h1
    · rintro ⟨h1, _, _⟩
      exact absurd h1 h

theorem read_field_info_ok_iff (buf : List u1) (p : Nat) (v c : Nat) :
    read_field_info buf p = Res.ok v c ↔
      p + 8 ≤ buf.length ∧
      iter (read_attribute_info buf) (be16 buf (p + 6)) (p + 8) = Res.ok () c ∧ v = c - p := by
  unfold read_field_info
  simp only [bind_ok_iff, read_u2_ok_iff]
  constructor
  · rintro ⟨cnt, c1, ⟨h1, rfl, rfl⟩, ⟨u, c2, h2, h3⟩⟩
    rw [attributes_loop_eq_iter buf _ (be16 buf (p + 6)) 0 _
      (by rw [u2_ofNat_val _ (be16_lt buf (p + 6))]; simp)] at h2
    cases h3
    exact ⟨by omega, h2, rfl⟩
  · rintro ⟨h1, h2, rfl⟩
    refine ⟨Fin.ofNat (be16 buf (p + 6)), p + 6 + 2, ⟨by omega, rfl, rfl⟩, (), c, ?_, rfl⟩
    rw [attributes_loop_eq_iter buf _ (be16 buf (p + 6)) 0 _
      (by rw [u2_ofNat_val _ (be16_lt buf (p + 6))]; simp)]
    exact h2

theorem attributes_loop_zero (buf : List u1) (count : u2) (p : Nat) :
    attributes_loop buf count 0 p = iter (read_attribute_info buf) count.val p :=
  attributes_loop_eq_iter buf count count.val 0 p (by simp)

theorem fields_loop_zero (buf : List u1) (count : u2) (p : Nat) :
    fields_loop buf count 0 p = iter (read_field_info buf) count.val p :=
  fields_loop_eq_iter buf count count.val 0 p (by simp)

theorem read_class_ok_iff (buf : List u1) (p : Nat) (L c : Nat) :
    read_class buf p = Res.ok L c ↔
      ∃ c1 c2 c3 c4,
        p + 10 ≤ buf.length ∧ be16 buf (p + 8) ≠ 0 ∧
        constant_pool_loop buf (Fin.ofNat (be16 buf (p + 8))) 0 (p + 10) = Res.ok () c1 ∧
        c1 + 8 ≤ buf.length ∧
        c2 = c1 + 8 + 2 * be16 buf (c1 + 6) ∧
        c2 + 2 ≤ buf.length ∧
        iter (read_field_info buf) (be16 buf c2) (c2 + 2) = Res.ok () c3 ∧
        c3 + 2 ≤ buf.length ∧
        iter (read_field_info buf) (be16 buf c3) (c3 + 2) = Res.ok () c4 ∧
        c4 + 2 ≤ buf.length ∧
        iter (read_attribute_info buf) (be16 buf c4) (c4 + 2) = Res.ok () c ∧
        L = c - p := by
  unfold read_class
  simp only [bind_ok_iff, read_u2_ok_iff, attributes_loop_zero, fields_loop_zero]
  constructor
  · rintro ⟨cpc, d1, ⟨h1, rfl, rfl⟩, h⟩
    split at h
    · cases h
    · rename_i hz
      rw [bind_ok_iff] at h
      obtain ⟨_, c1, hcp, h⟩ := h
      simp only [bind_ok_iff, read_u2_ok_iff] at h
      obtain ⟨ic, d2, ⟨h2, rfl, rfl⟩, fc, d3, ⟨h3, rfl, rfl⟩, _, c3, hf, mc, d4, ⟨h4, rfl, rfl⟩,
        _, c4, hm, ac, d5, ⟨h5, rfl, rfl⟩, _, c5, ha, hL⟩ := h
      simp only [u2_ofNat_val _ (be16_lt buf _)] at hf hm ha h3
      cases hL
      refine ⟨c1, _, c3, c4, by omega, ?_, hcp, by omega, rfl, by omega, ?_, h4, hm, h5, ha, rfl⟩
      · intro h0
        apply hz
        rw [h0]
        rfl
      · have e : c1 + 6 + 2 + 2 * be16 buf (c1 + 6) = c1 + 8 + 2 * be16 buf (c1 + 6) := by omega
        rw [← e]
        exact hf
  · rintro ⟨c1, c2, c3, c4, h1, hz, hcp, h2, rfl, h3, hf, h4, hm, h5, ha, rfl⟩
    refine ⟨_, _, ⟨by omega, rfl, rfl⟩, ?_⟩
    have hz' : ¬ ((Fin.ofNat (be16 buf (p + 8)) : u2) = 0) := by
      intro h0
      apply hz
      have := congrArg Fin.val h0
      rw [u2_ofNat_val _ (be16_lt buf _)] at this
      exact this
    rw [if_neg hz']
    simp only [bind_ok_iff, read_u2_ok_iff]
    have e : c1 + 6 + 2 + 2 * be16 buf (c1 + 6) = c1 + 8 + 2 * be16 buf (c1 + 6) := by omega
    refine ⟨(), c1, hcp, _, _, ⟨by omega, rfl, rfl⟩, _, _, ⟨?_, rfl, rfl⟩, (), c3, ?_, _, _,
      ⟨h4, rfl, rfl⟩, (), c4, ?_, _, _, ⟨h5, rfl, rfl⟩, (), c, ?_, rfl⟩
    · simp only [u2_ofNat_val _ (be16_lt buf _)]
      omega
    · simp only [u2_ofNat_val _ (be16_lt buf _)]
      rw [e]
      exact hf
    · simp only [u2_ofNat_val _ (be16_lt buf _)]
      exact hm
    · simp only [u2_ofNat_val _ (be16_lt buf _)]
      exact ha

theorem agree_mono {buf : List u1} {p : Nat} {buf2 : List u1} {q n : Nat}
    (h : Agree buf p buf2 q n) (m : Nat) (hm : m ≤ n) : Agree buf p buf2 q m :=
  fun j hj hp => h j (by omega) hp

theorem agree_shift {buf : List u1} {p : Nat} {buf2 : List u1} {q n : Nat}
    (h : Agree buf p buf2 q n) (k : Nat) (m : Nat) (hm : k + m ≤ n) :
    Agree buf (p + k) buf2 (q + k) m := by
  intro j hj hp
  have := h (k + j) (by omega) (by omega)
  rw [← Nat.add_assoc, ← Nat.add_assoc] at this
  exact this

theorem agree_length {buf : List u1} {p : Nat} {buf2 : List u1} {q n : Nat}
    (h : Agree buf p buf2 q n) (w : Nat) (h0 : 0 < w) (hw : w ≤ n)
    (hp : p + w ≤ buf.length) : q + w ≤ buf2.length := by
  cases w with
  | zero => omega
  | succ w =>
    have h1 := h w (by omega) (by omega)
    rw [List.getElem?_eq_getElem (by omega : p + w < buf.length)] at h1
    by_contra hc
    have hn : buf2[q + w]? = none := List.getElem?_eq_none (by omega)
    rw [hn] at h1
    cases h1

theorem agree_byteAt {buf : List u1} {p : Nat} {buf2 : List u1} {q n : Nat}
    (h : Agree buf p buf2 q n) (j : Nat) (hj : j < n) (hp : p + j < buf.length) :
    byteAt buf2 (q + j) = byteAt buf (p + j) := by
  unfold byteAt
  rw [List.getD_eq_getElem?_getD, List.getD_eq_getElem?_getD, h j hj hp]

theorem agree_getD {buf : List u1} {p : Nat} {buf2 : List u1} {q n : Nat}
    (h : Agree buf p buf2 q n) (hn : 0 < n) (hp : p < buf.length) :
    buf2.getD q 0 = buf.getD p 0 := by
  have := h 0 hn hp
  rw [Nat.add_zero, Nat.add_zero] at this
  rw [List.getD_eq_getElem?_getD, List.getD_eq_getElem?_getD, this]

theorem agree_be16 {buf : List u1} {p : Nat} {buf2 : List u1} {q n : Nat}
    (h : Agree buf p buf2 q n) (k : Nat) (hk : k + 2 ≤ n) (hp : p + k + 2 ≤ buf.length) :
    be16 buf2 (q + k) = be16 buf (p + k) := by
  unfold be16
  have h0 := agree_byteAt h k (by omega) (by omega)
  have h1 := agree_byteAt h (k + 1) (by omega) (by omega)
  rw [← Nat.add_assoc, ← Nat.add_assoc] at h1
  rw [h0, h1]

theorem agree_be32 {buf : List u1} {p : Nat} {buf2 : List u1} {q n : Nat}
    (h : Agree buf p buf2 q n) (k : Nat) (hk : k + 4 ≤ n) (hp : p + k + 4 ≤ buf.length) :
    be32 buf2 (q + k) = be32 buf (p + k) := by
  unfold be32
  have h0 := agree_byteAt h k (by omega) (by omega)
  have h1 := agree_byteAt h (k + 1) (by omega) (by omega)
  have h2 := agree_byteAt h (k + 2) (by omega) (by omega)
  have h3 := agree_byteAt h (k + 3) (by omega) (by omega)
  rw [← Nat.add_assoc, ← Nat.add_assoc] at h1 h2 h3
  rw [h0, h1, h2, h3]

theorem agree_sub {buf : List u1} {p : Nat} {buf2 : List u1} {q n : Nat}
    (h : Agree buf p buf2 q n) (a b m : Nat) (hpa : p ≤ a) (hb : b = q + (a - p))
    (hm : a - p + m ≤ n) : Agree buf a buf2 b m := by
  have := agree_shift h (a - p) m hm
  rw [Nat.add_sub_cancel' hpa, ← hb] at this
  exact this

theorem agree_be16_here {buf : List u1} {p : Nat} {buf2 : List u1} {q n : Nat}
    (h : Agree buf p buf2 q n) (hn : 2 ≤ n) (hp : p + 2 ≤ buf.length) :
    be16 buf2 q = be16 buf p := by
  have := agree_be16 h 0 (by omega) (by omega)
  rw [Nat.add_zero, Nat.add_zero] at this
  exact this

theorem read_attribute_info_ok_iff (buf : List u1) (p v c : Nat) :
    read_attribute_info buf p = Res.ok v c ↔
      p + 6 ≤ buf.length ∧ v = 6 + be32 buf (p + 2) ∧ c = p + 6 + be32 buf (p + 2) := by
  rw [read_attribute_info_eq]
  by_cases h : p + 6 ≤ buf.length
  · rw [if_pos h]
    constructor
    · intro h1
      cases h1
      exact ⟨h, rfl, rfl⟩
    · rintro ⟨_, rfl, rfl⟩
      rfl
  · rw [if_neg h]
    constructor
    · intro h1
      cases h1
    · rintro ⟨h1, _, _⟩
      exact absurd h1 h

theorem framed_read_attribute_info : Framed read_attribute_info := by
  intro buf p v c h
  rw [read_attribute_info_ok_iff] at h
  obtain ⟨h1, rfl, rfl⟩ := h
  refine ⟨by omega, ?_⟩
  intro buf2 q ha
  rw [read_attribute_info_ok_iff]
  have hl := agree_length ha 6 (by omega) (by omega) h1
  have hb := agree_be32 ha 2 (by omega) (by omega)
  rw [hb]
  exact ⟨hl, rfl, by omega⟩

theorem framed_iter (f : List u1 → Nat → Res Nat) (hf : Framed f) (n : Nat) :
    Framed (fun buf p => iter (f buf) n p) := by
  induction n with
  | zero =>
    intro buf p v c h
    cases h
    refine ⟨Nat.le_refl _, ?_⟩
    intro buf2 q _
    show Res.ok () q = Res.ok () (q + (p - p))
    rw [Nat.sub_self, Nat.add_zero]
  | succ n ih =>
    intro buf p v c h
    simp only [iter] at h
    cases hr : f buf p with
    | ok v1 c1 =>
      rw [hr] at h
      obtain ⟨h1, h2⟩ := hf buf p v1 c1 hr
      obtain ⟨h3, h4⟩ := ih buf c1 v c h
      refine ⟨by omega, ?_⟩
      intro buf2 q ha
      have e1 := h2 buf2 q (agree_mono ha _ (by omega))
      have e2 : iter (f buf2) n (q + (c1 - p)) = Res.ok v (q + (c1 - p) + (c - c1)) :=
        h4 buf2 (q + (c1 - p))
        (by
          have := agree_shift ha (c1 - p) (c - c1) (by omega)
          rw [Nat.add_sub_cancel' h1] at this
          exact this)
      simp only [iter, e1]
      rw [e2]
      congr 1
      omega
    | fail c1 =>
      rw [hr] at h
      cases h
    | oob =>
      rw [hr] at h
      cases h

theorem framed_read_field_info : Framed read_field_info := by
  intro buf p v c h
  rw [read_field_info_ok_iff] at h
  obtain ⟨h1, h2, rfl⟩ := h
  obtain ⟨h3, h4⟩ := framed_iter read_attribute_info framed_read_attribute_info _ buf _ _ _ h2
  refine ⟨by omega, ?_⟩
  intro buf2 q ha
  rw [read_field_info_ok_iff]
  have hl := agree_length ha 8 (by omega) (by omega) h1
  have hb := agree_be16 ha 6 (by omega) (by omega)
  have e := h4 buf2 (q + 8) (agree_shift ha 8 _ (by omega))
  rw [hb]
  refine ⟨hl, ?_, by omega⟩
  have e3 : q + 8 + (c - (p + 8)) = q + (c - p) := by omega
  rw [← e3]
  exact e

theorem constant_pool_loop_done (buf : List u1) (cpc i : u2) (p : Nat)
    (h : ¬ i.val + 1 < cpc.val) : constant_pool_loop buf cpc i p = Res.ok () p := by
  rw [constant_pool_loop]
  have hc : ¬ ((i.val : Int) < (cpc.val : Int) - 1) := by omega
  rw [if_neg hc]

theorem constant_pool_loop_step (buf : List u1) (cpc i : u2) (p : Nat)
    (h : i.val + 1 < cpc.val) :
    constant_pool_loop buf cpc i p =
      (read_u1 buf p).bind fun tag c1 =>
      (read_cp_info buf c1 tag).bind fun _ c2 =>
      constant_pool_loop buf cpc (i + (if tag = 5 ∨ tag = 6 then 1 else 0) + 1) c2 := by
  rw [constant_pool_loop]
  have hc : (i.val : Int) < (cpc.val : Int) - 1 := by omega
  rw [if_pos hc]
  cases h1 : read_u1 buf p with
  | ok tag c1 =>
    simp only [Res.bind]
    cases h2 : read_cp_info buf c1 tag with
    | ok v c2 => rfl
    | fail c2 => rfl
    | oob => rfl
  | fail c1 => rfl
  | oob => rfl

theorem cp_index_next (cpc i : u2) (tag : u1) (h : i.val + 1 < cpc.val) :
    (i + (if tag = 5 ∨ tag = 6 then 1 else 0) + 1 : u2).val = i.val + slots tag := by
  have hn := cpc.isLt
  unfold slots
  by_cases hw : tag = 5 ∨ tag = 6
  · rw [if_pos hw, if_pos hw, Fin.val_add, Fin.val_add]
    show ((i.val + 1) % 65536 + 1) % 65536 = i.val + 2
    omega
  · rw [if_neg hw, if_neg hw, Fin.val_add, Fin.val_add]
    show ((i.val + 0) % 65536 + 1) % 65536 = i.val + 1
    omega

theorem read_u1_ok_iff (buf : List u1) (p : Nat) (v : u1) (c : Nat) :
    read_u1 buf p = Res.ok v c ↔ p + 1 ≤ buf.length ∧ v = buf.getD p 0 ∧ c = p + 1 := by
  rw [read_u1_eq]
  by_cases h : p + 1 ≤ buf.length
  · rw [if_pos h]
    constructor
    · intro h1
      cases h1
      exact ⟨h, rfl, rfl⟩
    · rintro ⟨_, rfl, rfl⟩
      rfl
  · rw [if_neg h]
    constructor
    · intro h1
      cases h1
    · rintro ⟨h1, _, _⟩
      exact absurd h1 h

theorem read_cp_info_ok_iff (buf : List u1) (p : Nat) (tag : u1) (v c : Nat) :
    read_cp_info buf p tag = Res.ok v c ↔
      (tag = 1 ∧ p + 2 ≤ buf.length ∧ v = 2 + be16 buf p ∧ c = p + 2 + be16 buf p) ∨
      (tag ≠ 1 ∧ tag.val < 21 ∧ sizes.getD tag.val 0 ≠ 0 ∧ v = sizes.getD tag.val 0 ∧
        c = p + sizes.getD tag.val 0) := by
  rw [read_cp_info_eq]
  by_cases h1 : tag = 1
  · rw [if_pos h1]
    by_cases h : p + 2 ≤ buf.length
    · rw [if_pos h]
      constructor
      · intro h2
        cases h2
        exact Or.inl ⟨h1, h, rfl, rfl⟩
      · rintro (⟨_, _, rfl, rfl⟩ | ⟨h3, _⟩)
        · rfl
        · exact absurd h1 h3
    · rw [if_neg h]
      constructor
      · intro h2
        cases h2
      · rintro (⟨_, h3, _⟩ | ⟨h3, _⟩)
        · exact absurd h3 h
        · exact absurd h1 h3
  · rw [if_neg h1]
    by_cases h : 21 ≤ tag.val ∨ sizes.getD tag.val 0 = 0
    · rw [if_pos h]
      constructor
      · intro h2
        cases h2
      · rintro (⟨h3, _⟩ | ⟨_, h3, h4, _⟩)
        · exact absurd h3 h1
        · rcases h with h | h
          · omega
          · exact absurd h h4
    · rw [if_neg h]
      constructor
      · intro h2
        cases h2
        refine Or.inr ⟨h1, ?_, ?_, rfl, rfl⟩
        · by_contra hc
          exact h (Or.inl (by omega))
        · intro hc
          exact h (Or.inr hc)
      · rintro (⟨h3, _⟩ | ⟨_, _, _, rfl, rfl⟩)
        · exact absurd h3 h1
        · rfl

theorem framed_read_cp_info (tag : u1) : Framed (fun buf p => read_cp_info buf p tag) := by
  intro buf p v c h
  rw [read_cp_info_ok_iff] at h
  rcases h with ⟨h1, h2, rfl, rfl⟩ | ⟨h1, h2, h3, rfl, rfl⟩
  · refine ⟨by omega, ?_⟩
    intro buf2 q ha
    show read_cp_info buf2 q tag = _
    rw [read_cp_info_ok_iff]
    left
    have hl := agree_length ha 2 (by omega) (by omega) h2
    have hb := agree_be16 ha 0 (by omega) (by omega)
    rw [Nat.add_zero, Nat.add_zero] at hb
    rw [hb]
    exact ⟨h1, hl, rfl, by omega⟩
  · refine ⟨by omega, ?_⟩
    intro buf2 q _
    show read_cp_info buf2 q tag = _
    rw [read_cp_info_ok_iff]
    right
    exact ⟨h1, h2, h3, rfl, by omega⟩

theorem framed_constant_pool_loop (cpc : u2) :
    ∀ (n : Nat) (i : u2), cpc.val - i.val = n →
      Framed (fun buf p => constant_pool_loop buf cpc i p) := by
  intro n
  induction n using Nat.strong_induction_on with
  | _ n ih =>
    intro i hn buf p v c h
    replace h : constant_pool_loop buf cpc i p = Res.ok v c := h
    by_cases hc : i.val + 1 < cpc.val
    · simp only [constant_pool_loop_step buf cpc i p hc, bind_ok_iff, read_u1_ok_iff] at h
      obtain ⟨tag, c1, ⟨h1, rfl, rfl⟩, v2, c2, h2, h3⟩ := h
      have hi := cp_index_next cpc i (buf.getD p 0) hc
      have hs : 1 ≤ slots (buf.getD p 0) := by
        unfold slots
        split <;> omega
      obtain ⟨h4, h5⟩ := framed_read_cp_info _ buf _ _ _ h2
      obtain ⟨h6, h7⟩ := ih _ (by omega) _ rfl buf c2 v c h3
      refine ⟨by omega, ?_⟩
      intro buf2 q ha
      have hl := agree_length ha 1 (by omega) (by omega) h1
      have hb := agree_getD ha (by omega) (by omega)
      have e5 : read_cp_info buf2 (q + 1) (buf.getD p 0) = _ :=
        h5 buf2 (q + 1) (agree_shift ha 1 _ (by omega))
      have e7 : constant_pool_loop buf2 cpc _ (q + 1 + (c2 - (p + 1))) = _ :=
        h7 buf2 (q + 1 + (c2 - (p + 1)))
          (by
            have := agree_shift ha (c2 - p) (c - c2) (by omega)
            have e : p + (c2 - p) = c2 := by omega
            have e2 : q + (c2 - p) = q + 1 + (c2 - (p + 1)) := by omega
            rw [e, e2] at this
            exact this)
      show constant_pool_loop buf2 cpc i q = _
      simp only [constant_pool_loop_step buf2 cpc i q hc, bind_ok_iff, read_u1_ok_iff]
      refine ⟨_, _, ⟨hl, rfl, rfl⟩, v2, q + 1 + (c2 - (p + 1)), ?_, ?_⟩
      · rw [hb]
        exact e5
      · rw [hb, e7]
        congr 1
        omega
    · rw [constant_pool_loop_done buf cpc i p hc] at h
      cases h
      refine ⟨Nat.le_refl _, ?_⟩
      intro buf2 q _
      show constant_pool_loop buf2 cpc i q = _
      rw [constant_pool_loop_done buf2 cpc i q hc, Nat.sub_self, Nat.add_zero]

theorem framed_read_class : Framed read_class := by
  intro buf p L c h
  rw [read_class_ok_iff] at h
  obtain ⟨c1, c2, c3, c4, h1, hz, hcp, h2, rfl, h3, hf, h4, hm, h5, ha, rfl⟩ := h
  obtain ⟨m1, f1⟩ := framed_constant_pool_loop _ _ 0 rfl buf _ _ _ hcp
  obtain ⟨m2, f2⟩ := framed_iter read_field_info framed_read_field_info _ buf _ _ _ hf
  obtain ⟨m3, f3⟩ := framed_iter read_field_info framed_read_field_info _ buf _ _ _ hm
  obtain ⟨m4, f4⟩ := framed_iter read_attribute_info framed_read_attribute_info _ buf _ _ _ ha
  refine ⟨by omega, ?_⟩
  intro buf2 q hg
  rw [read_class_ok_iff]
  have b1 : be16 buf2 (q + 8) = be16 buf (p + 8) :=
    agree_be16_here (agree_sub hg (p + 8) (q + 8) 2 (by omega) (by omega) (by omega)) (by omega) (by omega)
  have b2 : be16 buf2 (q + (c1 - p) + 6) = be16 buf (c1 + 6) :=
    agree_be16_here (agree_sub hg (c1 + 6) (q + (c1 - p) + 6) 2 (by omega) (by omega) (by omega))
      (by omega) (by omega)
  have b3 : be16 buf2 (q + (c1 + 8 + 2 * be16 buf (c1 + 6) - p)) =
      be16 buf (c1 + 8 + 2 * be16 buf (c1 + 6)) :=
    agree_be16_here (agree_sub hg _ _ 2 (by omega) rfl (by omega)) (by omega) (by omega)
  have b4 : be16 buf2 (q + (c3 - p)) = be16 buf c3 :=
    agree_be16_here (agree_sub hg _ _ 2 (by omega) rfl (by omega)) (by omega) (by omega)
  have b5 : be16 buf2 (q + (c4 - p)) = be16 buf c4 :=
    agree_be16_here (agree_sub hg _ _ 2 (by omega) rfl (by omega)) (by omega) (by omega)
  have e1 : constant_pool_loop buf2 _ 0 (q + 10) = _ :=
    f1 buf2 (q + 10) (agree_sub hg _ _ _ (by omega) (by omega) (by omega))
  have e2 : iter (read_field_info buf2) _ (q + (c1 + 8 + 2 * be16 buf (c1 + 6) - p) + 2) = _ :=
    f2 buf2 _ (agree_sub hg _ _ _ (by omega) (by omega) (by omega))
  have e3 : iter (read_field_info buf2) _ (q + (c3 - p) + 2) = _ :=
    f3 buf2 _ (agree_sub hg _ _ _ (by omega) (by omega) (by omega))
  have e4 : iter (read_attribute_info buf2) _ (q + (c4 - p) + 2) = _ :=
    f4 buf2 _ (agree_sub hg _ _ _ (by omega) (by omega) (by omega))
  refine ⟨q + (c1 - p), q + (c1 + 8 + 2 * be16 buf (c1 + 6) - p), q + (c3 - p), q + (c4 - p),
    ?_, ?_, ?_, ?_, ?_, ?_, ?_, ?_, ?_, ?_, ?_, ?_⟩
  · exact agree_length hg 10 (by omega) (by omega) (by omega)
  · rw [b1]
    exact hz
  · rw [b1, e1]
    congr 1
    omega
  · have := agree_length hg (c1 - p + 8) (by omega) (by omega) (by omega)
    omega
  · rw [b2]
    omega
  · have := agree_length hg (c1 + 8 + 2 * be16 buf (c1 + 6) - p + 2) (by omega) (by omega) (by omega)
    omega
  · rw [b3, e2]
    congr 1
    omega
  · have := agree_length hg (c3 - p + 2) (by omega) (by omega) (by omega)
    omega
  · rw [b4, e3]
    congr 1
    omega
  · have := agree_length hg (c4 - p + 2) (by omega) (by omega) (by omega)
    omega
  · rw [b5, e4]
    congr 1
    omega
  · omega

theorem bind_ne_oob {α β : Type} (r : Res α) (f : α → Nat → Res β) (hr : r ≠ Res.oob)
    (hf : ∀ v c, f v c ≠ Res.oob) : r.bind f ≠ Res.oob := by
  cases r with
  | ok v c => exact hf v c
  | fail c =>
    intro h
    cases h
  | oob => exact absurd rfl hr

theorem read_u1_ne_oob (buf : List u1) (p : Nat) : read_u1 buf p ≠ Res.oob := by
  rw [read_u1_eq]
  split <;> intro h <;> cases h

theorem read_u2_ne_oob (buf : List u1) (p : Nat) : read_u2 buf p ≠ Res.oob := by
  rw [read_u2_eq]
  split <;> intro h <;> cases h

theorem read_u4_ne_oob (buf : List u1) (p : Nat) : read_u4 buf p ≠ Res.oob := by
  rw [read_u4_eq]
  split <;> intro h <;> cases h

theorem read_cp_info_ne_oob (buf : List u1) (p : Nat) (tag : u1) :
    read_cp_info buf p tag ≠ Res.oob := by
  rw [read_cp_info_eq]
  split
  · split <;> intro h <;> cases h
  · split <;> intro h <;> cases h

theorem read_attribute_info_ne_oob (buf : List u1) (p : Nat) :
    read_attribute_info buf p ≠ Res.oob := by
  rw [read_attribute_info_eq]
  split <;> intro h <;> cases h

theorem iter_ne_oob (f : Nat → Res Nat) (hf : ∀ p, f p ≠ Res.oob) :
    ∀ (n p : Nat), iter f n p ≠ Res.oob := by
  intro n
  induction n with
  | zero =>
    intro p h
    cases h
  | succ n ih =>
    intro p
    rw [iter]
    cases hr : f p with
    | ok v c => exact ih c
    | fail c =>
      intro h
      cases h
    | oob => exact absurd hr (hf p)

theorem attributes_loop_ne_oob (buf : List u1) (count i : u2) (p : Nat) :
    attributes_loop buf count i p ≠ Res.oob := by
  induction i, p using attributes_loop.induct buf count with
  | case1 i p hlt v c hr ih =>
    rw [attributes_loop, if_pos hlt, hr]
    exact ih
  | case2 i p hlt c hr =>
    rw [attributes_loop, if_pos hlt, hr]
    intro h
    cases h
  | case3 i p hlt hr => exact absurd hr (read_attribute_info_ne_oob buf p)
  | case4 i p hlt =>
    rw [attributes_loop, if_neg hlt]
    intro h
    cases h

theorem read_field_info_ne_oob (buf : List u1) (p : Nat) : read_field_info buf p ≠ Res.oob := by
  unfold read_field_info
  refine bind_ne_oob _ _ (read_u2_ne_oob _ _) ?_
  intro cnt c
  refine bind_ne_oob _ _ (attributes_loop_ne_oob _ _ _ _) ?_
  intro _ c2 h
  cases h

theorem fields_loop_ne_oob (buf : List u1) (count j : u2) (p : Nat) :
    fields_loop buf count j p ≠ Res.oob := by
  induction j, p using fields_loop.induct buf count with
  | case1 j p hlt v c hr ih =>
    rw [fields_loop, if_pos hlt, hr]
    exact ih
  | case2 j p hlt c hr =>
    rw [fields_loop, if_pos hlt, hr]
    intro h
    cases h
  | case3 j p hlt hr => exact absurd hr (read_field_info_ne_oob buf p)
  | case4 j p hlt =>
    rw [fields_loop, if_neg hlt]
    intro h
    cases h

theorem constant_pool_loop_ne_oob (buf : List u1) (cpc i : u2) (p : Nat) :
    constant_pool_loop buf cpc i p ≠ Res.oob := by
  induction i, p using constant_pool_loop.induct buf cpc with
  | case1 i p hlt tag c1 h1 v c2 h2 ih =>
    rw [constant_pool_loop, if_pos hlt, h1]
    simp only [h2]
    exact ih
  | case2 i p hlt tag c1 h1 c2 h2 =>
    rw [constant_pool_loop, if_pos hlt, h1]
    simp only [h2]
    intro h
    cases h
  | case3 i p hlt tag c1 h1 h2 => exact absurd h2 (read_cp_info_ne_oob buf c1 tag)
  | case4 i p hlt c1 h1 =>
    rw [constant_pool_loop, if_pos hlt, h1]
    intro h
    cases h
  | case5 i p hlt h1 => exact absurd h1 (read_u1_ne_oob buf p)
  | case6 i p hlt =>
    rw [constant_pool_loop, if_neg hlt]
    intro h
    cases h

theorem read_class_ne_oob (buf : List u1) (p : Nat) : read_class buf p ≠ Res.oob := by
  unfold read_class
  refine bind_ne_oob _ _ (read_u2_ne_oob _ _) ?_
  intro cpc c
  split
  · intro h
    cases h
  · refine bind_ne_oob _ _ (constant_pool_loop_ne_oob _ _ _ _) ?_
    intro _ c
    refine bind_ne_oob _ _ (read_u2_ne_oob _ _) ?_
    intro ic c
    refine bind_ne_oob _ _ (read_u2_ne_oob _ _) ?_
    intro fc c
    refine bind_ne_oob _ _ (fields_loop_ne_oob _ _ _ _) ?_
    intro _ c
    refine bind_ne_oob _ _ (read_u2_ne_oob _ _) ?_
    intro mc c
    refine bind_ne_oob _ _ (fields_loop_ne_oob _ _ _ _) ?_
    intro _ c
    refine bind_ne_oob _ _ (read_u2_ne_oob _ _) ?_
    intro ac c
    refine bind_ne_oob _ _ (attributes_loop_ne_oob _ _ _ _) ?_
    intro _ c h
    cases h

theorem magicAt_bound (buf : List u1) (o : Nat) (h : magicAt buf o) : o + 4 ≤ buf.length := by
  obtain ⟨_, _, _, h3⟩ := h
  by_contra hc
  have hn : buf[o + 3]? = none := List.getElem?_eq_none (by omega)
  rw [hn] at h3
  cases h3

theorem byteAt_eq_iff (buf : List u1) (i : Nat) (b : u1) (h : i < buf.length) :
    buf[i]? = some b ↔ byteAt buf i = b.val := by
  unfold byteAt
  rw [List.getD_eq_getElem?_getD, List.getElem?_eq_getElem h]
  simp only [Option.some.injEq, Option.getD_some]
  constructor
  · intro e
    rw [e]
  · intro e
    exact Fin.ext e

theorem magicAt_iff_be32 (buf : List u1) (o : Nat) (h : o + 4 ≤ buf.length) :
    magicAt buf o ↔ be32 buf o = 0xCAFEBABE := by
  unfold magicAt
  rw [byteAt_eq_iff buf o _ (by omega), byteAt_eq_iff buf (o + 1) _ (by omega),
    byteAt_eq_iff buf (o + 2) _ (by omega), byteAt_eq_iff buf (o + 3) _ (by omega)]
  have h0 := byteAt_lt buf o
  have h1 := byteAt_lt buf (o + 1)
  have h2 := byteAt_lt buf (o + 2)
  have h3 := byteAt_lt buf (o + 3)
  unfold be32
  show _ = 202 ∧ _ = 254 ∧ _ = 186 ∧ _ = 190 ↔ _
  constructor
  · rintro ⟨e0, e1, e2, e3⟩
    rw [e0, e1, e2, e3]
  · intro e
    omega

theorem find_next_class_loop_step (buf : List u1) (s p : Nat) :
    find_next_class_loop buf s p =
      if p + 4 ≤ buf.length then
        (if magicAt buf p then Res.ok (p - s) p else find_next_class_loop buf s (p + 1))
      else Res.fail p := by
  rw [find_next_class_loop]
  by_cases h : p + 4 ≤ buf.length
  · have hc : ¬ ((p : Int) > (buf.length : Int) - 4) := by omega
    rw [if_neg hc, if_pos h]
    have hr : _read_u4 buf p = some (Fin.ofNat (be32 buf p), p + 4) := by
      rw [_read_u4, getElem?_of_lt buf p (by omega), getElem?_of_lt buf (p + 1) (by omega),
        getElem?_of_lt buf (p + 2) (by omega), getElem?_of_lt buf (p + 3) (by omega)]
      rfl
    split
    · rename_i magic data1 heq
      rw [hr] at heq
      cases heq
      have hm : ((Fin.ofNat (be32 buf p) : u4) = 0xCAFEBABE) ↔ magicAt buf p := by
        rw [magicAt_iff_be32 buf p h]
        constructor
        · intro e
          have := congrArg Fin.val e
          rw [u4_ofNat_val _ (be32_lt buf p)] at this
          exact this
        · intro e
          apply Fin.ext
          rw [u4_ofNat_val _ (be32_lt buf p)]
          exact e
      by_cases hmag : magicAt buf p
      · rw [if_pos (hm.mpr hmag), if_pos hmag]
        simp
      · rw [if_neg (fun e => hmag (hm.mp e)), if_neg hmag]
        simp
    · rename_i heq
      rw [hr] at heq
      cases heq
  · have hc : (p : Int) > (buf.length : Int) - 4 := by omega
    rw [if_pos hc, if_neg h]

theorem find_next_class_loop_ne_oob (buf : List u1) (s : Nat) :
    ∀ (n p : Nat), buf.length - p = n → find_next_class_loop buf s p ≠ Res.oob := by
  intro n
  induction n using Nat.strong_induction_on with
  | _ n ih =>
    intro p hn
    rw [find_next_class_loop_step]
    split
    · split
      · intro h
        cases h
      · exact ih _ (by omega) (p + 1) rfl
    · intro h
      cases h

theorem find_next_class_cur (buf : List u1) (s1 s2 : Nat) :
    ∀ (n p : Nat), buf.length - p = n →
      (∀ r c, find_next_class_loop buf s1 p = Res.ok r c →
        find_next_class_loop buf s2 p = Res.ok (c - s2) c) ∧
      (∀ c, find_next_class_loop buf s1 p = Res.fail c →
        find_next_class_loop buf s2 p = Res.fail c) := by
  intro n
  induction n using Nat.strong_induction_on with
  | _ n ih =>
    intro p hn
    rw [find_next_class_loop_step buf s1, find_next_class_loop_step buf s2]
    by_cases h : p + 4 ≤ buf.length
    · rw [if_pos h, if_pos h]
      by_cases hm : magicAt buf p
      · rw [if_pos hm, if_pos hm]
        constructor
        · intro r c e
          cases e
          rfl
        · intro c e
          cases e
      · rw [if_neg hm, if_neg hm]
        exact ih _ (by omega) (p + 1) rfl
    · rw [if_neg h, if_neg h]
      constructor
      · intro r c e
        cases e
      · intro c e
        exact e

theorem dump_loop_of_find (buf : List u1) (p num : Nat) (r : Res Nat)
    (h : find_next_class buf p = r) :
    dump_loop buf p num =
      match r with
      | Res.ok _ data1 =>
        match read_class buf data1 with
        | Res.ok class_size _ =>
          if class_size ≤ MAX_CLASS_SIZE then
            Artifact.mk num data1 class_size :: dump_loop buf (data1 + 1) (num + 1)
          else dump_loop buf (data1 + 1) num
        | Res.fail _ => dump_loop buf (data1 + 1) num
        | Res.oob => []
      | Res.fail _ => []
      | Res.oob => [] := by
  rw [dump_loop]
  cases r with
  | ok v c =>
    split
    · rename_i heq
      rw [h] at heq
      cases heq
      rfl
    · rename_i heq
      rw [h] at heq
      cases heq
    · rename_i heq
      rw [h] at heq
      cases heq
  | fail c =>
    split
    · rename_i heq
      rw [h] at heq
      cases heq
    · rfl
    · rfl
  | oob =>
    split
    · rename_i heq
      rw [h] at heq
      cases heq
    · rfl
    · rfl

theorem dump_loop_end (buf : List u1) (p num : Nat) (h : ¬ p + 4 ≤ buf.length) :
    dump_loop buf p num = [] := by
  rw [dump_loop_of_find buf p num (Res.fail p)]
  unfold find_next_class
  rw [find_next_class_loop_step, if_neg h]

theorem dump_loop_skip (buf : List u1) (p num : Nat) (h : p + 4 ≤ buf.length)
    (hm : ¬ magicAt buf p) : dump_loop buf p num = dump_loop buf (p + 1) num := by
  have e : find_next_class buf p = find_next_class_loop buf p (p + 1) := by
    unfold find_next_class
    rw [find_next_class_loop_step, if_pos h, if_neg hm]
  have key := find_next_class_cur buf p (p + 1) _ (p + 1) rfl
  cases hr : find_next_class_loop buf p (p + 1) with
  | ok r c =>
    rw [dump_loop_of_find buf p num _ (e.trans hr),
      dump_loop_of_find buf (p + 1) num _ (key.1 r c hr)]
  | fail c =>
    rw [dump_loop_of_find buf p num _ (e.trans hr),
      dump_loop_of_find buf (p + 1) num _ (key.2 c hr)]
  | oob => exact absurd hr (find_next_class_loop_ne_oob buf p _ (p + 1) rfl)

theorem dump_loop_match (buf : List u1) (p num : Nat) (hm : magicAt buf p) :
    dump_loop buf p num =
      match read_class buf p with
      | Res.ok class_size _ =>
        if class_size ≤ MAX_CLASS_SIZE then
          Artifact.mk num p class_size :: dump_loop buf (p + 1) (num + 1)
        else dump_loop buf (p + 1) num
      | Res.fail _ => dump_loop buf (p + 1) num
      | Res.oob => [] := by
  have h := magicAt_bound buf p hm
  rw [dump_loop_of_find buf p num (Res.ok (p - p) p)]
  unfold find_next_class
  rw [find_next_class_loop_step, if_pos h, if_pos hm]

theorem dump_loop_cons (buf : List u1) (p num : Nat) (h : p + 4 ≤ buf.length) :
    dump_loop buf p num =
      match accept buf p with
      | some (o, L) => Artifact.mk num o L :: dump_loop buf (p + 1) (num + 1)
      | none => dump_loop buf (p + 1) num := by
  unfold accept
  by_cases hm : magicAt buf p
  · rw [dump_loop_match buf p num hm, if_pos hm]
    cases hr : read_class buf p with
    | ok L c =>
      by_cases hL : L ≤ MAX_CLASS_SIZE
      · simp only [if_pos hL]
      · simp only [if_neg hL]
    | fail c => rfl
    | oob => exact absurd hr (read_class_ne_oob buf p)
  · rw [dump_loop_skip buf p num h hm, if_neg hm]

theorem dump_loop_eq (buf : List u1) :
    ∀ (n p num : Nat), buf.length - 3 - p = n →
      dump_loop buf p num = number num ((List.range' p n).filterMap (accept buf)) := by
  intro n
  induction n with
  | zero =>
    intro p num hn
    rw [dump_loop_end buf p num (by omega)]
    rfl
  | succ n ih =>
    intro p num hn
    rw [dump_loop_cons buf p num (by omega), List.range'_succ, List.filterMap_cons]
    cases ha : accept buf p with
    | none => exact ih (p + 1) num (by omega)
    | some x =>
      obtain ⟨o, L⟩ := x
      simp only [number]
      rw [ih (p + 1) (num + 1) (by omega)]

theorem dump_eq (buf : List u1) : dump buf = number 0 (candidates buf) := by
  unfold dump candidates
  rw [dump_loop_eq buf (buf.length - 3) 0 0 rfl, List.range_eq_range']

theorem accept_eq_some_iff (buf : List u1) (o : Nat) (x : Nat × Nat) :
    accept buf o = some x ↔
      x.1 = o ∧ magicAt buf o ∧ ∃ c, read_class buf o = Res.ok x.2 c ∧ x.2 ≤ MAX_CLASS_SIZE := by
  unfold accept
  by_cases hm : magicAt buf o
  · rw [if_pos hm]
    cases hr : read_class buf o with
    | ok L c =>
      by_cases hL : L ≤ MAX_CLASS_SIZE
      · simp only [if_pos hL, Option.some.injEq]
        constructor
        · intro e
          subst e
          exact ⟨rfl, hm, c, rfl, hL⟩
        · rintro ⟨e1, _, c2, e2, _⟩
          cases e2
          obtain ⟨a, b⟩ := x
          simp only at e1
          rw [e1]
      · simp only [if_neg hL]
        constructor
        · intro e
          cases e
        · rintro ⟨_, _, c2, e2, h3⟩
          cases e2
          exact absurd h3 hL
    | fail c =>
      constructor
      · intro e
        cases e
      · rintro ⟨_, _, c2, e2, _⟩
        cases e2
    | oob =>
      constructor
      · intro e
        cases e
      · rintro ⟨_, _, c2, e2, _⟩
        cases e2
  · rw [if_neg hm]
    constructor
    · intro e
      cases e
    · rintro ⟨_, h, _⟩
      exact absurd h hm

theorem mem_candidates_iff (buf : List u1) (o L : Nat) :
    (o, L) ∈ candidates buf ↔
      magicAt buf o ∧ ∃ c, read_class buf o = Res.ok L c ∧ L ≤ MAX_CLASS_SIZE := by
  unfold candidates
  rw [List.mem_filterMap]
  constructor
  · rintro ⟨a, _, ha⟩
    rw [accept_eq_some_iff] at ha
    obtain ⟨e, hm, c, hr, hL⟩ := ha
    simp only at e
    subst e
    exact ⟨hm, c, hr, hL⟩
  · rintro ⟨hm, c, hr, hL⟩
    refine ⟨o, ?_, ?_⟩
    · rw [List.mem_range]
      have := magicAt_bound buf o hm
      omega
    · rw [accept_eq_some_iff]
      exact ⟨rfl, hm, c, hr, hL⟩

theorem candidates_sorted (buf : List u1) :
    (candidates buf).Pairwise (fun a b => a.1 < b.1) := by
  unfold candidates
  rw [List.pairwise_filterMap]
  refine List.Pairwise.imp ?_ (List.pairwise_lt_range _)
  intro a b hab x hx y hy
  rw [Option.mem_def, accept_eq_some_iff] at hx hy
  rw [hx.1, hy.1]
  exact hab

theorem number_getElem? (l : List (Nat × Nat)) :
    ∀ (k i : Nat), (number k l)[i]? = (l[i]?).map (fun x => Artifact.mk (k + i) x.1 x.2) := by
  induction l with
  | nil =>
    intro k i
    rfl
  | cons x rest ih =>
    intro k i
    obtain ⟨o, L⟩ := x
    cases i with
    | zero => simp [number]
    | succ i =>
      simp only [number, List.getElem?_cons_succ]
      rw [ih (k + 1) i]
      congr 2
      funext x
      congr 1
      omega

theorem number_length (l : List (Nat × Nat)) : ∀ (k : Nat), (number k l).length = l.length := by
  induction l with
  | nil =>
    intro k
    rfl
  | cons x rest ih =>
    intro k
    obtain ⟨o, L⟩ := x
    simp only [number, List.length_cons]
    rw [ih]

theorem mem_number_iff (l : List (Nat × Nat)) (k : Nat) (a : Artifact) :
    a ∈ number k l ↔ ∃ i, l[i]? = some (a.off, a.size) ∧ a.num = k + i := by
  rw [List.mem_iff_getElem?]
  constructor
  · rintro ⟨i, hi⟩
    rw [number_getElem?] at hi
    cases hl : l[i]? with
    | none =>
      rw [hl] at hi
      cases hi
    | some x =>
      rw [hl] at hi
      simp only [Option.map_some', Option.some.injEq] at hi
      subst hi
      exact ⟨i, hl, rfl⟩
  · rintro ⟨i, hi, hn⟩
    refine ⟨i, ?_⟩
    rw [number_getElem?, hi]
    simp only [Option.map_some', Option.some.injEq]
    rw [← hn]

theorem mem_dump_iff (buf : List u1) (a : Artifact) :
    a ∈ dump buf ↔ ∃ i, (candidates buf)[i]? = some (a.off, a.size) ∧ a.num = i := by
  rw [dump_eq, mem_number_iff]
  simp only [Nat.zero_add]

theorem mem_dump_candidate (buf : List u1) (a : Artifact) (h : a ∈ dump buf) :
    magicAt buf a.off ∧ ∃ c, read_class buf a.off = Res.ok a.size c ∧
      a.size ≤ MAX_CLASS_SIZE := by
  rw [mem_dump_iff] at h
  obtain ⟨i, hi, _⟩ := h
  rw [← mem_candidates_iff]
  exact List.mem_iff_getElem?.mpr ⟨i, hi⟩

theorem candidate_mem_dump (buf : List u1) (o L c : Nat) (hm : magicAt buf o)
    (hr : read_class buf o = Res.ok L c) (hL : L ≤ MAX_CLASS_SIZE) :
    ∃ k, Artifact.mk k o L ∈ dump buf := by
  have hc : (o, L) ∈ candidates buf := by
    rw [mem_candidates_iff]
    exact ⟨hm, c, hr, hL⟩
  rw [List.mem_iff_getElem?] at hc
  obtain ⟨i, hi⟩ := hc
  refine ⟨i, ?_⟩
  rw [mem_dump_iff]
  exact ⟨i, hi, rfl⟩

theorem at_append_middle (pre X post : List u1) : At (pre ++ X ++ post) pre.length X := by
  intro j hj
  rw [List.append_assoc, List.getElem?_append_right (by omega), Nat.add_sub_cancel_left,
    List.getElem?_append_left hj]

theorem at_left {buf : List u1} {q : Nat} {X Y : List u1} (h : At buf q (X ++ Y)) :
    At buf q X := by
  intro j hj
  rw [h j (by rw [List.length_append]; omega), List.getElem?_append_left hj]

theorem at_right {buf : List u1} {q : Nat} {X Y : List u1} (h : At buf q (X ++ Y)) :
    At buf (q + X.length) Y := by
  intro j hj
  have := h (X.length + j) (by rw [List.length_append]; omega)
  rw [List.getElem?_append_right (by omega), Nat.add_sub_cancel_left, ← Nat.add_assoc] at this
  exact this

theorem at_length {buf : List u1} {q : Nat} {X : List u1} (h : At buf q X) (hx : 0 < X.length) :
    q + X.length ≤ buf.length := by
  have h1 := h (X.length - 1) (by omega)
  rw [List.getElem?_eq_getElem (by omega : X.length - 1 < X.length)] at h1
  by_contra hc
  have hn : buf[q + (X.length - 1)]? = none := List.getElem?_eq_none (by omega)
  rw [hn] at h1
  cases h1

theorem at_byteAt {buf : List u1} {q : Nat} {X : List u1} (h : At buf q X) (j : Nat)
    (hj : j < X.length) : byteAt buf (q + j) = byteAt X j := by
  unfold byteAt
  rw [List.getD_eq_getElem?_getD, List.getD_eq_getElem?_getD, h j hj]

theorem at_agree {buf : List u1} {q : Nat} {X : List u1} (h : At buf q X) :
    Agree X 0 buf q X.length := by
  intro j hj _
  rw [Nat.zero_add]
  exact h j hj

theorem at_ser_u2 {buf : List u1} {q : Nat} {n : Nat} (h : At buf q (ser_u2 n))
    (hn : n < 65536) : q + 2 ≤ buf.length ∧ be16 buf q = n := by
  constructor
  · exact at_length h (by simp [ser_u2])
  · unfold be16
    have e0 := at_byteAt h 0 (by simp [ser_u2])
    have e1 := at_byteAt h 1 (by simp [ser_u2])
    rw [Nat.add_zero] at e0
    rw [e0, e1]
    show (n / 256) % 256 * 256 + (n % 256) % 256 = n
    omega

theorem at_ser_u4 {buf : List u1} {q : Nat} {n : Nat} (h : At buf q (ser_u4 n))
    (hn : n < 4294967296) : q + 4 ≤ buf.length ∧ be32 buf q = n := by
  constructor
  · exact at_length h (by simp [ser_u4])
  · unfold be32
    have e0 := at_byteAt h 0 (by simp [ser_u4])
    have e1 := at_byteAt h 1 (by simp [ser_u4])
    have e2 := at_byteAt h 2 (by simp [ser_u4])
    have e3 := at_byteAt h 3 (by simp [ser_u4])
    rw [Nat.add_zero] at e0
    rw [e0, e1, e2, e3]
    show (((n / 16777216) % 256 * 256 + (n / 65536 % 256) % 256) * 256 + (n / 256 % 256) % 256)
      * 256 + (n % 256) % 256 = n
    omega

theorem ser_u2_length (n : Nat) : (ser_u2 n).length = 2 := rfl

theorem ser_u4_length (n : Nat) : (ser_u4 n).length = 4 := rfl

theorem read_attribute_info_serialize (a : attribute_info) (ha : a.wf) (buf : List u1) (q : Nat)
    (h : At buf q (ser_attribute_info a)) :
    read_attribute_info buf q =
      Res.ok (ser_attribute_info a).length (q + (ser_attribute_info a).length) := by
  rw [read_attribute_info_ok_iff]
  have hl : (ser_attribute_info a).length = 6 + a.info.length := by
    simp only [ser_attribute_info, List.length_append, ser_u2_length, ser_u4_length]
    omega
  have h4 := at_ser_u4 (at_left (at_right h)) ha
  rw [ser_u2_length] at h4
  rw [hl, h4.2]
  exact ⟨by omega, rfl, by omega⟩

theorem iter_serialize {α : Type} (f : List u1 → Nat → Res Nat) (ser : α → List u1)
    (wf : α → Prop)
    (hf : ∀ a, wf a → ∀ buf q, At buf q (ser a) →
      f buf q = Res.ok (ser a).length (q + (ser a).length)) :
    ∀ (xs : List α), (∀ a ∈ xs, wf a) → ∀ buf q, At buf q (ser_list ser xs) →
      iter (f buf) xs.length q = Res.ok () (q + (ser_list ser xs).length) := by
  intro xs
  induction xs with
  | nil =>
    intro _ buf q _
    rfl
  | cons a rest ih =>
    intro hw buf q h
    simp only [ser_list, List.length_cons, List.length_append, iter]
    rw [ser_list] at h
    rw [hf a (hw a (List.mem_cons_self a rest)) buf q (at_left h)]
    simp only []
    rw [ih (fun b hb => hw b (List.mem_cons_of_mem a hb)) buf _ (at_right h), Nat.add_assoc]

theorem read_field_info_serialize (f : field_info) (hf : f.wf) (buf : List u1) (q : Nat)
    (h : At buf q (ser_field_info f)) :
    read_field_info buf q = Res.ok (ser_field_info f).length (q + (ser_field_info f).length) := by
  rw [read_field_info_ok_iff]
  have hl : (ser_field_info f).length = 8 + (ser_list ser_attribute_info f.attributes).length := by
    simp only [ser_field_info, List.length_append, ser_u2_length]
    omega
  have h3 := at_right (at_right (at_right h))
  simp only [ser_u2_length] at h3
  have hc := at_ser_u2 (at_left h3) hf.1
  have hi := iter_serialize read_attribute_info ser_attribute_info attribute_info.wf
    read_attribute_info_serialize f.attributes hf.2 buf _ (at_right h3)
  rw [ser_u2_length] at hi
  rw [hl, hc.2]
  refine ⟨by omega, ?_, by omega⟩
  rw [hi]
  congr 1
  omega

theorem ser_cp_info_length (e : cp_info) : 1 ≤ (ser_cp_info e).length := by
  cases e with
  | utf8 bytes => simp [ser_cp_info]
  | fixed tag info => simp [ser_cp_info]

theorem read_cp_info_serialize (e : cp_info) (he : e.wf) (buf : List u1) (q : Nat)
    (h : At buf q (ser_cp_info e)) :
    q + 1 ≤ buf.length ∧ buf.getD q 0 = e.tag ∧
    read_cp_info buf (q + 1) e.tag =
      Res.ok ((ser_cp_info e).length - 1) (q + (ser_cp_info e).length) := by
  have hl := at_length h (ser_cp_info_length e)
  have hs := ser_cp_info_length e
  have h0 := h 0 (ser_cp_info_length e)
  rw [Nat.add_zero] at h0
  refine ⟨by omega, ?_, ?_⟩
  · rw [List.getD_eq_getElem?_getD, h0]
    cases e with
    | utf8 bytes => simp [ser_cp_info, cp_info.tag]
    | fixed tag info => simp [ser_cp_info, cp_info.tag]
  · rw [read_cp_info_ok_iff]
    cases e with
    | utf8 bytes =>
      left
      have h1 : At buf (q + 1) (ser_u2 bytes.length ++ bytes) :=
        at_right (show At buf q ([(1 : u1)] ++ (ser_u2 bytes.length ++ bytes)) from h)
      have h2 := at_ser_u2 (at_left h1) he
      simp only [ser_cp_info, List.length_cons, List.length_append, ser_u2_length]
      rw [h2.2]
      exact ⟨rfl, h2.1, by omega, by omega⟩
    | fixed tag info =>
      right
      obtain ⟨w1, w2, w3, w4⟩ := he
      simp only [ser_cp_info, List.length_cons, cp_info.tag]
      rw [w4]
      exact ⟨w1, w2, w3, by omega, by omega⟩

theorem constant_pool_loop_serialize (buf : List u1) (cpc : u2) :
    ∀ (es : List cp_info), (∀ e ∈ es, e.wf) → ∀ (i : u2) (q : Nat),
      i.val + pool_slots es + 1 = cpc.val → At buf q (ser_list ser_cp_info es) →
      constant_pool_loop buf cpc i q = Res.ok () (q + (ser_list ser_cp_info es).length) := by
  intro es
  induction es with
  | nil =>
    intro _ i q hi _
    rw [constant_pool_loop_done buf cpc i q (by simp only [pool_slots] at hi; omega)]
    rfl
  | cons e rest ih =>
    intro hw i q hi h
    rw [ser_list] at h
    have hs : 1 ≤ slots e.tag := by
      unfold slots
      split <;> omega
    simp only [pool_slots] at hi
    have hc : i.val + 1 < cpc.val := by omega
    obtain ⟨r1, r2, r3⟩ := read_cp_info_serialize e (hw e (List.mem_cons_self e rest)) buf q
      (at_left h)
    have hn := cp_index_next cpc i e.tag hc
    rw [constant_pool_loop_step buf cpc i q hc, read_u1_eq, if_pos r1]
    simp only [Res.bind, r2, r3]
    rw [ih (fun b hb => hw b (List.mem_cons_of_mem e hb)) _ _ (by omega) (at_right h)]
    simp only [ser_list, List.length_append, Nat.add_assoc]

theorem at_skip {buf : List u1} {q : Nat} {X Y : List u1} (h : At buf q (X ++ Y)) (q2 : Nat)
    (e : q2 = q + X.length) : At buf q2 Y := by
  rw [e]
  exact at_right h

theorem ser_interfaces_length (l : List u2) :
    (ser_list (fun i : u2 => ser_u2 i.val) l).length = 2 * l.length := by
  induction l with
  | nil => rfl
  | cons a rest ih =>
    simp only [ser_list, List.length_append, List.length_cons, ser_u2_length, ih]
    omega

theorem serialize_length (cf : ClassFile) :
    (serialize cf).length =
      24 + (ser_list ser_cp_info cf.constant_pool).length + 2 * cf.interfaces.length +
        (ser_list ser_field_info cf.fields).length +
        (ser_list ser_field_info cf.methods).length +
        (ser_list ser_attribute_info cf.attributes).length := by
  simp only [serialize, List.length_append, ser_u2_length, ser_u4_length, ser_interfaces_length]
  omega

theorem read_class_serialize (cf : ClassFile) (hw : cf.wf) (buf : List u1) (q : Nat)
    (h : At buf q (serialize cf)) :
    read_class buf q = Res.ok (serialize cf).length (q + (serialize cf).length) := by
  obtain ⟨w1, w2, w3, w4, w5, w6, w7, w8, w9⟩ := hw
  unfold serialize at h
  have h3 : At buf (q + 8) _ := at_skip (at_right (at_right h)) (q + 8) (by
    simp only [ser_u2_length, ser_u4_length])
  have n1 := at_ser_u2 (at_left h3) w1
  have h4 : At buf (q + 10) _ := at_skip h3 (q + 10) (by simp only [ser_u2_length])
  have l1 := constant_pool_loop_serialize buf (Fin.ofNat (pool_slots cf.constant_pool + 1))
    cf.constant_pool w2 0 (q + 10)
    (by
      rw [u2_ofNat_val _ w1]
      simp)
    (at_left h4)
  have h5 : At buf (q + 10 + (ser_list ser_cp_info cf.constant_pool).length + 6) _ :=
    at_skip (at_right (at_right (at_right h4))) _ (by simp only [ser_u2_length])
  have n2 := at_ser_u2 (at_left h5) w3
  have h6 : At buf (q + 10 + (ser_list ser_cp_info cf.constant_pool).length + 8 +
      2 * cf.interfaces.length) _ :=
    at_skip (at_right h5) _ (by simp only [ser_u2_length, ser_interfaces_length])
  have n3 := at_ser_u2 (at_left h6) w4
  have h7 := at_right h6
  rw [ser_u2_length] at h7
  have l2 := iter_serialize read_field_info ser_field_info field_info.wf
    read_field_info_serialize cf.fields w5 buf _ (at_left h7)
  have h8 := at_right h7
  have n4 := at_ser_u2 (at_left h8) w6
  have h9 := at_right h8
  rw [ser_u2_length] at h9
  have l3 := iter_serialize read_field_info ser_field_info field_info.wf
    read_field_info_serialize cf.methods w7 buf _ (at_left h9)
  have h10 := at_right h9
  have n5 := at_ser_u2 (at_left h10) w8
  have h11 := at_right h10
  rw [ser_u2_length] at h11
  have l4 := iter_serialize read_attribute_info ser_attribute_info attribute_info.wf
    read_attribute_info_serialize cf.attributes w9 buf _ h11
  rw [read_class_ok_iff]
  refine ⟨q + 10 + (ser_list ser_cp_info cf.constant_pool).length,
    q + 10 + (ser_list ser_cp_info cf.constant_pool).length + 8 + 2 * cf.interfaces.length,
    q + 10 + (ser_list ser_cp_info cf.constant_pool).length + 8 + 2 * cf.interfaces.length + 2 +
      (ser_list ser_field_info cf.fields).length,
    q + 10 + (ser_list ser_cp_info cf.constant_pool).length + 8 + 2 * cf.interfaces.length + 2 +
      (ser_list ser_field_info cf.fields).length + 2 +
      (ser_list ser_field_info cf.methods).length,
    by omega, ?_, ?_, by omega, ?_, by omega, ?_, by omega, ?_, by omega, ?_, ?_⟩
  · rw [n1.2]
    omega
  · rw [n1.2]
    exact l1
  · rw [n2.2]
  · rw [n3.2]
    exact l2
  · rw [n4.2]
    exact l3
  · rw [n5.2, l4]
    congr 1
    rw [serialize_length]
    omega
  · rw [serialize_length]
    omega

theorem read_class_cpc_zero (buf : List u1) (o : Nat) (h : be16 buf (o + 8) = 0) (L c : Nat) :
    read_class buf o ≠ Res.ok L c := by
  intro hr
  rw [read_class_ok_iff] at hr
  obtain ⟨_, _, _, _, _, hz, _⟩ := hr
  exact hz h

theorem read_class_cpc_zero_fail (buf : List u1) (o : Nat) (hl : o + 10 ≤ buf.length)
    (h : be16 buf (o + 8) = 0) : read_class buf o = Res.fail (o + 10) := by
  unfold read_class
  simp only [read_u2_eq, if_pos hl, Res.bind, h]
  rfl

theorem read_class_lower_bound (buf : List u1) (o L c : Nat)
    (h : read_class buf o = Res.ok L c) : 24 ≤ L ∧ c = o + L := by
  rw [read_class_ok_iff] at h
  obtain ⟨c1, c2, c3, c4, h1, hz, hcp, h2, rfl, h3, hf, h4, hm, h5, ha, rfl⟩ := h
  obtain ⟨m1, _⟩ := framed_constant_pool_loop _ _ 0 rfl buf _ _ _ hcp
  obtain ⟨m2, _⟩ := framed_iter read_field_info framed_read_field_info _ buf _ _ _ hf
  obtain ⟨m3, _⟩ := framed_iter read_field_info framed_read_field_info _ buf _ _ _ hm
  obtain ⟨m4, _⟩ := framed_iter read_attribute_info framed_read_attribute_info _ buf _ _ _ ha
  omega

theorem write_file_agree (buf tail : List u1) (o L : Nat) :
    Agree buf o (write_file (buf ++ tail) o L) 0 L := by
  intro j hj hp
  unfold write_file
  rw [Nat.zero_add, List.getElem?_take_of_lt hj, List.getElem?_drop,
    List.getElem?_append_left hp]

theorem read_class_write_file (buf tail : List u1) (o L c : Nat)
    (h : read_class buf o = Res.ok L c) :
    read_class (write_file (buf ++ tail) o L) 0 = Res.ok L L := by
  obtain ⟨_, hc⟩ := read_class_lower_bound buf o L c h
  obtain ⟨_, hf⟩ := framed_read_class buf o L c h
  have e : c - o = L := by omega
  rw [e] at hf
  have := hf _ 0 (write_file_agree buf tail o L)
  rw [Nat.zero_add] at this
  exact this

theorem sample_class_wf : sample_class.wf := by decide

theorem noMagic_all (buf : List u1) (h : noMagic buf) (o : Nat) : ¬ magicAt buf o := by
  intro hm
  have hb := magicAt_bound buf o hm
  exact h o (by omega) hm

theorem candidates_nil_of_noMagic (buf : List u1) (h : noMagic buf) : candidates buf = [] := by
  unfold candidates
  rw [List.filterMap_eq_nil_iff]
  intro o _
  unfold accept
  rw [if_neg (noMagic_all buf h o)]

/-- C1: for every well-formed class-file structure `cf` of the grammar and all
byte sequences `pre` and `post`, `read_class` on the buffer
`pre ++ serialize cf ++ post` from offset `|pre|` returns normally, and the
value it returns is the length of `serialize cf`. -/
theorem read_class_returns_serialized_length (cf : ClassFile) (hw : cf.wf)
    (pre post : List u1) :
    read_class (pre ++ serialize cf ++ post) pre.length =
      Res.ok (serialize cf).length (pre.length + (serialize cf).length) :=
  read_class_serialize cf hw _ _ (at_append_middle pre (serialize cf) post)

/-- Witness of C1: the sample class, of 76 bytes, between two and one foreign bytes. -/
theorem read_class_returns_serialized_length_witness :
    sample_class.wf ∧ (serialize sample_class).length = 76 ∧
      read_class ([1, 2] ++ serialize sample_class ++ [3]) 2 = Res.ok 76 78 :=
  ⟨by decide, by decide,
    read_class_returns_serialized_length sample_class (by decide) [1, 2] [3]⟩

/-- C3: the artifacts `dump` emits are the accepted candidates, numbered from 0
in order: the pairs `(o, L)` with `o + 4 ≤ len`, the magic value at `o` and
`read_class` returning `L ≤ MAX_CLASS_SIZE` at `o`, by strictly increasing `o`;
the `k`-th of them is written as `k.class`. -/
theorem dump_emits_accepted_candidates (buf : List u1) :
    dump buf = number 0 (candidates buf) ∧
    (candidates buf).Pairwise (fun a b => a.1 < b.1) ∧
    (∀ o L, (o, L) ∈ candidates buf ↔
      o + 4 ≤ buf.length ∧ magicAt buf o ∧
        ∃ c, read_class buf o = Res.ok L c ∧ L ≤ MAX_CLASS_SIZE) ∧
    (∀ (k : Nat) (a : Artifact), (dump buf)[k]? = some a →
      a.num = k ∧ (candidates buf)[k]? = some (a.off, a.size)) := by
  refine ⟨dump_eq buf, candidates_sorted buf, ?_, ?_⟩
  · intro o L
    rw [mem_candidates_iff]
    constructor
    · rintro ⟨hm, h⟩
      exact ⟨magicAt_bound buf o hm, hm, h⟩
    · rintro ⟨_, hm, h⟩
      exact ⟨hm, h⟩
  · intro k a h
    rw [dump_eq, number_getElem?] at h
    cases hc : (candidates buf)[k]? with
    | none =>
      rw [hc] at h
      cases h
    | some x =>
      rw [hc] at h
      simp only [Option.map_some', Option.some.injEq, Nat.zero_add] at h
      subst h
      exact ⟨rfl, rfl⟩

/-- C4: round trip.  For every artifact `dump` emits on a buffer, `read_class`
from offset 0 on the bytes `write_file` writes for it returns normally with the
same length, whatever bytes `tail` follow the buffer in memory. -/
theorem read_class_round_trip (buf : List u1) (a : Artifact) (h : a ∈ dump buf)
    (tail : List u1) :
    read_class (write_file (buf ++ tail) a.off a.size) 0 = Res.ok a.size a.size := by
  obtain ⟨_, c, hr, _⟩ := mem_dump_candidate buf a h
  exact read_class_write_file buf tail a.off a.size c hr

/-- Witness of C4: the minimal class file inside a buffer of 27 bytes. -/
theorem read_class_round_trip_witness :
    Artifact.mk 0 1 24 ∈ dump ([7] ++ minimal ++ [8, 9]) ∧
      read_class (write_file ([7] ++ minimal ++ [8, 9] ++ []) 1 24) 0 = Res.ok 24 24 :=
  ⟨by decide!, read_class_round_trip ([7] ++ minimal ++ [8, 9]) (Artifact.mk 0 1 24)
    (by decide!) []⟩

theorem getElem?_byteAt (buf : List u1) (i : Nat) (b : u1) (h : buf[i]? = some b) :
    byteAt buf i = b.val := by
  unfold byteAt
  rw [List.getD_eq_getElem?_getD, h]
  rfl

/-- C7: a candidate whose constant-pool count is 0 is rejected, and the scan
goes on.  When the magic value is at `o` and the two bytes at `o + 8` are 0,
`read_class` fails at `o`, `dump` emits no artifact of offset `o`, and every
later offset with the magic value that `read_class` measures within
`MAX_CLASS_SIZE` yields an artifact. -/
theorem zero_constant_pool_count_rejected (buf : List u1) (o : Nat) (_hm : magicAt buf o)
    (h8 : buf[o + 8]? = some 0) (h9 : buf[o + 9]? = some 0) :
    (∃ c, read_class buf o = Res.fail c) ∧ (∀ a ∈ dump buf, a.off ≠ o) ∧
    (∀ o2 L c, o < o2 → magicAt buf o2 → read_class buf o2 = Res.ok L c →
      L ≤ MAX_CLASS_SIZE → ∃ k, Artifact.mk k o2 L ∈ dump buf) := by
  have hz : be16 buf (o + 8) = 0 := by
    unfold be16
    rw [getElem?_byteAt buf _ _ h8, getElem?_byteAt buf _ _ h9]
    rfl
  have hl : o + 10 ≤ buf.length := by
    by_contra hc
    have hn : buf[o + 9]? = none := List.getElem?_eq_none (by omega)
    rw [hn] at h9
    cases h9
  refine ⟨⟨o + 10, read_class_cpc_zero_fail buf o hl hz⟩, ?_, ?_⟩
  · intro a ha e
    obtain ⟨_, c, hr, _⟩ := mem_dump_candidate buf a ha
    rw [e] at hr
    exact read_class_cpc_zero buf o hz _ _ hr
  · intro o2 L c _ hm2 hr hL
    exact candidate_mem_dump buf o2 L c hm2 hr hL

/-- Witness of C7: a header with constant-pool count 0, then the minimal class
file, which is still found at offset 10. -/
theorem zero_constant_pool_count_rejected_witness :
    (∃ c, read_class ([0xCA, 0xFE, 0xBA, 0xBE, 0, 0, 0, 52, 0, 0] ++ minimal) 0 = Res.fail c) ∧
      ∃ k, Artifact.mk k 10 24 ∈ dump ([0xCA, 0xFE, 0xBA, 0xBE, 0, 0, 0, 52, 0, 0] ++ minimal) :=
  have h := zero_constant_pool_count_rejected
    ([0xCA, 0xFE, 0xBA, 0xBE, 0, 0, 0, 52, 0, 0] ++ minimal) 0 (by decide) (by decide)
    (by decide)
  ⟨h.1, h.2.2 10 24 34 (by decide) (by decide) (by decide!) (by decide)⟩

/-- C8: on a buffer without any occurrence of the magic value, the empty
buffer and the buffers of fewer than 4 bytes included, `dump` emits nothing. -/
theorem no_magic_no_artifacts (buf : List u1) (h : noMagic buf) : dump buf = [] := by
  rw [dump_eq, candidates_nil_of_noMagic buf h]
  rfl

/-- Witness of C8: a buffer that misses the magic value by its last byte, the
empty buffer and a buffer of three bytes. -/
theorem no_magic_no_artifacts_witness :
    dump [0xCA, 0xFE, 0xBA, 0xBF, 0xCA, 0xFE, 0xBA] = [] ∧ dump [] = [] ∧
      dump [0xCA, 0xFE, 0xBA] = [] :=
  ⟨no_magic_no_artifacts _ (by decide), no_magic_no_artifacts _ (by decide),
    no_magic_no_artifacts _ (by decide)⟩

/-- C2 at its failing input: on the 30 bytes of `truncated`, whose class
attribute declares a body of 5 bytes that the buffer does not hold, `dump`
emits an artifact of 35 bytes at offset 0. -/
theorem dump_truncated_past_end :
    truncated.length = 30 ∧ dump truncated = [Artifact.mk 0 0 35] :=
  ⟨by decide, by decide!⟩

/-- C9: every artifact has a size between 24, the size of the fixed fields of
a class file, and `MAX_CLASS_SIZE` = 10485760; `read_class` never returns less
than 24; a candidate measured at exactly `MAX_CLASS_SIZE` is accepted and one
measured above it is rejected. -/
theorem artifact_size_bounds (buf : List u1) :
    MAX_CLASS_SIZE = 10485760 ∧
    (∀ a ∈ dump buf, 24 ≤ a.size ∧ a.size ≤ MAX_CLASS_SIZE) ∧
    (∀ o L c, read_class buf o = Res.ok L c → 24 ≤ L) ∧
    (∀ o c, magicAt buf o → read_class buf o = Res.ok MAX_CLASS_SIZE c →
      ∃ k, Artifact.mk k o MAX_CLASS_SIZE ∈ dump buf) ∧
    (∀ o L c, read_class buf o = Res.ok L c → MAX_CLASS_SIZE < L →
      ∀ a ∈ dump buf, a.off ≠ o) := by
  refine ⟨rfl, ?_, ?_, ?_, ?_⟩
  · intro a ha
    obtain ⟨_, c, hr, hL⟩ := mem_dump_candidate buf a ha
    exact ⟨(read_class_lower_bound buf _ _ c hr).1, hL⟩
  · intro o L c hr
    exact (read_class_lower_bound buf o L c hr).1
  · intro o c hm hr
    exact candidate_mem_dump buf o _ c hm hr (Nat.le_refl _)
  · intro o L c hr hL a ha e
    obtain ⟨_, c2, hr2, hL2⟩ := mem_dump_candidate buf a ha
    rw [e, hr] at hr2
    cases hr2
    omega

/-- Instances of C9: the buffer measured at exactly `MAX_CLASS_SIZE` yields an
artifact, the one measured one byte above yields none. -/
theorem artifact_size_bounds_witness :
    (∃ k, Artifact.mk k 0 MAX_CLASS_SIZE ∈ dump at_limit) ∧ (∀ a ∈ dump over_limit, a.off ≠ 0) :=
  ⟨(artifact_size_bounds at_limit).2.2.2.1 0 MAX_CLASS_SIZE (by decide) (by decide!),
    (artifact_size_bounds over_limit).2.2.2.2 0 (MAX_CLASS_SIZE + 1) (MAX_CLASS_SIZE + 1)
      (by decide!) (by decide)⟩

theorem find_next_class_ne_oob (buf : List u1) (p : Nat) : find_next_class buf p ≠ Res.oob :=
  find_next_class_loop_ne_oob buf p _ p rfl

/-- C10: no function of the walk loads a byte outside the buffer.  Each of the
macros `read_u1`, `read_u2`, `read_u4` returns a value only when the bytes it
loads lie below the buffer end, and `find_next_class`, `read_class`,
`read_cp_info`, `read_field_info` and `read_attribute_info` never reach the
out-of-range branch of a load, from any cursor. -/
theorem reads_stay_inside_buffer (buf : List u1) (p : Nat) :
    (∀ v c, read_u1 buf p = Res.ok v c → p + 1 ≤ buf.length) ∧
    (∀ v c, read_u2 buf p = Res.ok v c → p + 2 ≤ buf.length) ∧
    (∀ v c, read_u4 buf p = Res.ok v c → p + 4 ≤ buf.length) ∧
    read_u1 buf p ≠ Res.oob ∧ read_u2 buf p ≠ Res.oob ∧ read_u4 buf p ≠ Res.oob ∧
    find_next_class buf p ≠ Res.oob ∧ read_class buf p ≠ Res.oob ∧
    (∀ tag, read_cp_info buf p tag ≠ Res.oob) ∧ read_field_info buf p ≠ Res.oob ∧
    read_attribute_info buf p ≠ Res.oob := by
  refine ⟨?_, ?_, ?_, read_u1_ne_oob buf p, read_u2_ne_oob buf p, read_u4_ne_oob buf p,
    find_next_class_ne_oob buf p, read_class_ne_oob buf p, read_cp_info_ne_oob buf p,
    read_field_info_ne_oob buf p, read_attribute_info_ne_oob buf p⟩
  · intro v c h
    rw [read_u1_ok_iff] at h
    exact h.1
  · intro v c h
    rw [read_u2_ok_iff] at h
    exact h.1
  · intro v c h
    rw [read_u4_eq] at h
    by_contra hc
    rw [if_neg hc] at h
    cases h

theorem magicAt_append_left (pre rest : List u1) (o : Nat) (h : o + 4 ≤ pre.length) :
    magicAt (pre ++ rest) o ↔ magicAt pre o := by
  unfold magicAt
  rw [List.getElem?_append_left (by omega), List.getElem?_append_left (by omega),
    List.getElem?_append_left (by omega), List.getElem?_append_left (by omega)]

theorem magicAt_append_right (pre rest : List u1) (k : Nat) :
    magicAt (pre ++ rest) (pre.length + k) ↔ magicAt rest k := by
  unfold magicAt
  rw [List.getElem?_append_right (by omega), List.getElem?_append_right (by omega),
    List.getElem?_append_right (by omega), List.getElem?_append_right (by omega)]
  have e0 : pre.length + k - pre.length = k := by omega
  have e1 : pre.length + k + 1 - pre.length = k + 1 := by omega
  have e2 : pre.length + k + 2 - pre.length = k + 2 := by omega
  have e3 : pre.length + k + 3 - pre.length = k + 3 := by omega
  rw [e0, e1, e2, e3]

theorem dump_loop_hit (buf : List u1) (p num o L : Nat) (h : accept buf p = some (o, L)) :
    dump_loop buf p num = Artifact.mk num o L :: dump_loop buf (p + 1) (num + 1) := by
  have hm : magicAt buf p := ((accept_eq_some_iff buf p (o, L)).mp h).2.1
  rw [dump_loop_cons buf p num (magicAt_bound buf p hm), h]

theorem dump_loop_skip_to (buf : List u1) (num : Nat) :
    ∀ (n p p2 : Nat), p2 - p = n → p ≤ p2 →
      (∀ o, p ≤ o → o < p2 → accept buf o = none) →
      dump_loop buf p num = dump_loop buf p2 num := by
  intro n
  induction n with
  | zero =>
    intro p p2 hn hle _
    have e : p = p2 := by omega
    rw [e]
  | succ n ih =>
    intro p p2 hn hle h
    by_cases hb : p + 4 ≤ buf.length
    · rw [dump_loop_cons buf p num hb, h p (Nat.le_refl _) (by omega)]
      exact ih (p + 1) p2 (by omega) (by omega) (fun o h1 h2 => h o (by omega) h2)
    · rw [dump_loop_end buf p num hb, dump_loop_end buf p2 num (by omega)]

theorem dump_loop_none (buf : List u1) (p num : Nat) (h : ∀ o, p ≤ o → accept buf o = none) :
    dump_loop buf p num = [] := by
  rw [dump_loop_skip_to buf num _ p (max p buf.length) rfl (Nat.le_max_left _ _)
    (fun o h1 _ => h o h1)]
  exact dump_loop_end buf _ num (by omega)

theorem accept_none_of_not_magic (buf : List u1) (o : Nat) (h : ¬ magicAt buf o) :
    accept buf o = none := by
  unfold accept
  rw [if_neg h]

theorem accept_none_of_cpc_zero (buf : List u1) (o : Nat) (h : be16 buf (o + 8) = 0) :
    accept buf o = none := by
  cases ha : accept buf o with
  | none => rfl
  | some x =>
    rw [accept_eq_some_iff] at ha
    obtain ⟨_, _, c, hr, _⟩ := ha
    exact absurd hr (read_class_cpc_zero buf o h _ _)

theorem accept_of_read_class (buf : List u1) (o L c : Nat) (hm : magicAt buf o)
    (hr : read_class buf o = Res.ok L c) (hL : L ≤ MAX_CLASS_SIZE) :
    accept buf o = some (o, L) := by
  rw [accept_eq_some_iff]
  exact ⟨rfl, hm, c, hr, hL⟩

theorem write_file_middle (pre X post : List u1) :
    write_file (pre ++ X ++ post) pre.length X.length = X := by
  unfold write_file
  rw [List.append_assoc, List.drop_left, List.take_left]

theorem iter_zero (f : Nat → Res Nat) (p : Nat) : iter f 0 p = Res.ok () p := rfl

theorem read_class_minimal (m0 m1 M0 M1 a0 a1 a2 a3 a4 a5 : u1) (buf : List u1) (q : Nat)
    (h : At buf q (minimal_class m0 m1 M0 M1 a0 a1 a2 a3 a4 a5)) :
    read_class buf q = Res.ok 24 (q + 24) := by
  have hl := at_length h (by simp [minimal_class])
  have hlen : (minimal_class m0 m1 M0 M1 a0 a1 a2 a3 a4 a5).length = 24 := rfl
  rw [hlen] at hl
  have b : ∀ j, j < 24 → byteAt buf (q + j) =
      byteAt (minimal_class m0 m1 M0 M1 a0 a1 a2 a3 a4 a5) j :=
    fun j hj => at_byteAt h j (by rw [hlen]; exact hj)
  have v8 : be16 buf (q + 8) = 1 := by
    unfold be16
    rw [b 8 (by omega), show q + 8 + 1 = q + 9 from rfl, b 9 (by omega)]
    simp [byteAt, minimal_class]
  have v16 : be16 buf (q + 10 + 6) = 0 := by
    unfold be16
    rw [show q + 10 + 6 = q + 16 from rfl, show q + 16 + 1 = q + 17 from rfl,
      b 16 (by omega), b 17 (by omega)]
    simp [byteAt, minimal_class]
  have v18 : be16 buf (q + 10 + 8 + 2 * 0) = 0 := by
    unfold be16
    rw [show q + 10 + 8 + 2 * 0 = q + 18 from rfl, show q + 18 + 1 = q + 19 from rfl,
      b 18 (by omega), b 19 (by omega)]
    simp [byteAt, minimal_class]
  have v20 : be16 buf (q + 10 + 8 + 2 * 0 + 2) = 0 := by
    unfold be16
    rw [show q + 10 + 8 + 2 * 0 + 2 = q + 20 from rfl, show q + 20 + 1 = q + 21 from rfl,
      b 20 (by omega), b 21 (by omega)]
    simp [byteAt, minimal_class]
  have v22 : be16 buf (q + 10 + 8 + 2 * 0 + 2 + 2) = 0 := by
    unfold be16
    rw [show q + 10 + 8 + 2 * 0 + 2 + 2 = q + 22 from rfl, show q + 22 + 1 = q + 23 from rfl,
      b 22 (by omega), b 23 (by omega)]
    simp [byteAt, minimal_class]
  rw [read_class_ok_iff]
  refine ⟨q + 10, q + 10 + 8 + 2 * 0, q + 10 + 8 + 2 * 0 + 2, q + 10 + 8 + 2 * 0 + 2 + 2,
    by omega, ?_, ?_, by omega, ?_, by omega, ?_, by omega, ?_, by omega, ?_, by omega⟩
  · rw [v8]
    decide
  · rw [v8]
    exact constant_pool_loop_done buf _ 0 (q + 10) (by decide)
  · rw [v16]
  · rw [v18]
    rfl
  · rw [v20]
    rfl
  · rw [v22]
    rfl

theorem magic_in_minimal (m0 m1 M0 M1 a0 a1 a2 a3 a4 a5 : u1) (pre post : List u1)
    (hpre : noMagic pre) (hpost : noMagic post) (o : Nat)
    (hm : magicAt (pre ++ minimal_class m0 m1 M0 M1 a0 a1 a2 a3 a4 a5 ++ post) o) :
    o = pre.length ∨
    (o = pre.length + 4 ∧ m0 = 0xCA ∧ m1 = 0xFE ∧ M0 = 0xBA ∧ M1 = 0xBE) ∨
    o = pre.length + 10 ∨ o = pre.length + 11 ∨ o = pre.length + 12 := by
  rw [List.append_assoc] at hm
  by_cases h1 : o + 4 ≤ pre.length
  · exact absurd ((magicAt_append_left pre _ o h1).mp hm) (noMagic_all pre hpre o)
  · by_cases h2 : o < pre.length
    · have hC : (pre ++ (minimal_class m0 m1 M0 M1 a0 a1 a2 a3 a4 a5 ++ post))[pre.length]? =
          some 0xCA := by
        rw [List.getElem?_append_right (Nat.le_refl _), Nat.sub_self]
        rfl
      obtain ⟨_, c1, c2, c3⟩ := hm
      have ht : o + 1 = pre.length ∨ o + 2 = pre.length ∨ o + 3 = pre.length := by omega
      rcases ht with e | e | e
      · rw [e, hC] at c1
        exact absurd c1 (by decide)
      · rw [e, hC] at c2
        exact absurd c2 (by decide)
      · rw [e, hC] at c3
        exact absurd c3 (by decide)
    · obtain ⟨k, rfl⟩ : ∃ k, o = pre.length + k := ⟨o - pre.length, by omega⟩
      rw [magicAt_append_right] at hm
      by_cases h3 : 24 ≤ k
      · obtain ⟨j, rfl⟩ : ∃ j, k = 24 + j := ⟨k - 24, by omega⟩
        have := (magicAt_append_right (minimal_class m0 m1 M0 M1 a0 a1 a2 a3 a4 a5) post j).mp hm
        exact absurd this (noMagic_all post hpost j)
      · have hk : k < 24 := by omega
        interval_cases k
        all_goals simp [magicAt, minimal_class] at hm
        · exact Or.inl rfl
        · exact Or.inr (Or.inl ⟨rfl, hm⟩)
        · exact Or.inr (Or.inr (Or.inl rfl))
        · exact Or.inr (Or.inr (Or.inr (Or.inl rfl)))
        · exact Or.inr (Or.inr (Or.inr (Or.inr rfl)))

theorem accept_none_of_rejected (buf : List u1) (o : Nat)
    (h : ∀ L c, read_class buf o = Res.ok L c → MAX_CLASS_SIZE < L) : accept buf o = none := by
  cases ha : accept buf o with
  | none => rfl
  | some x =>
    rw [accept_eq_some_iff] at ha
    obtain ⟨_, _, c, hr, hL⟩ := ha
    have := h _ c hr
    omega

theorem cpc_zero_in_minimal (m0 m1 M0 M1 a0 a1 a2 a3 a4 a5 : u1) (pre post : List u1)
    (k : Nat) (h1 : 10 ≤ k) (h2 : k ≤ 12) :
    be16 (pre ++ minimal_class m0 m1 M0 M1 a0 a1 a2 a3 a4 a5 ++ post) (pre.length + k + 8) =
      0 := by
  have h := at_append_middle pre (minimal_class m0 m1 M0 M1 a0 a1 a2 a3 a4 a5) post
  have hlen : (minimal_class m0 m1 M0 M1 a0 a1 a2 a3 a4 a5).length = 24 := rfl
  unfold be16
  have e1 := at_byteAt h (k + 8) (by rw [hlen]; omega)
  have e2 := at_byteAt h (k + 8 + 1) (by rw [hlen]; omega)
  rw [← Nat.add_assoc] at e1 e2
  rw [← Nat.add_assoc] at e2
  rw [e1, e2]
  interval_cases k <;> simp [byteAt, minimal_class]

/-- C5, amended: for every minimal class file `C` and all `pre` and `post`
without occurrence of the magic value, `dump` on `pre ++ C ++ post` emits
exactly one artifact, at offset `|pre|` and of length 24, and the bytes written
for it are `C`, provided that the version bytes of `C` are not `CA FE BA BE`
or else that `read_class` rejects the candidate they begin at `|pre| + 4` (it
fails there or returns more than `MAX_CLASS_SIZE`). -/
theorem dump_minimal_class (m0 m1 M0 M1 a0 a1 a2 a3 a4 a5 : u1) (pre post : List u1)
    (hpre : noMagic pre) (hpost : noMagic post)
    (hv : (m0 = 0xCA ∧ m1 = 0xFE ∧ M0 = 0xBA ∧ M1 = 0xBE) →
      ∀ L c, read_class (pre ++ minimal_class m0 m1 M0 M1 a0 a1 a2 a3 a4 a5 ++ post)
        (pre.length + 4) = Res.ok L c → MAX_CLASS_SIZE < L) :
    dump (pre ++ minimal_class m0 m1 M0 M1 a0 a1 a2 a3 a4 a5 ++ post) =
      [Artifact.mk 0 pre.length 24] ∧
    write_file (pre ++ minimal_class m0 m1 M0 M1 a0 a1 a2 a3 a4 a5 ++ post) pre.length 24 =
      minimal_class m0 m1 M0 M1 a0 a1 a2 a3 a4 a5 := by
  refine ⟨?_, write_file_middle pre (minimal_class m0 m1 M0 M1 a0 a1 a2 a3 a4 a5) post⟩
  have hat := at_append_middle pre (minimal_class m0 m1 M0 M1 a0 a1 a2 a3 a4 a5) post
  have hr := read_class_minimal m0 m1 M0 M1 a0 a1 a2 a3 a4 a5 _ _ hat
  have hm0 : magicAt (pre ++ minimal_class m0 m1 M0 M1 a0 a1 a2 a3 a4 a5 ++ post)
      pre.length := by
    rw [List.append_assoc]
    exact (magicAt_append_right pre _ 0).mpr (by simp [magicAt, minimal_class])
  have hacc := accept_of_read_class _ _ _ _ hm0 hr (by decide)
  have hnone : ∀ o, o ≠ pre.length →
      accept (pre ++ minimal_class m0 m1 M0 M1 a0 a1 a2 a3 a4 a5 ++ post) o = none := by
    intro o ho
    by_cases hm : magicAt (pre ++ minimal_class m0 m1 M0 M1 a0 a1 a2 a3 a4 a5 ++ post) o
    · rcases magic_in_minimal m0 m1 M0 M1 a0 a1 a2 a3 a4 a5 pre post hpre hpost o hm with
        e | ⟨e, hver⟩ | e | e | e
      · exact absurd e ho
      · rw [e]
        exact accept_none_of_rejected _ _ (hv hver)
      · rw [e]
        exact accept_none_of_cpc_zero _ _
          (cpc_zero_in_minimal m0 m1 M0 M1 a0 a1 a2 a3 a4 a5 pre post 10 (by omega) (by omega))
      · rw [e]
        exact accept_none_of_cpc_zero _ _
          (cpc_zero_in_minimal m0 m1 M0 M1 a0 a1 a2 a3 a4 a5 pre post 11 (by omega) (by omega))
      · rw [e]
        exact accept_none_of_cpc_zero _ _
          (cpc_zero_in_minimal m0 m1 M0 M1 a0 a1 a2 a3 a4 a5 pre post 12 (by omega) (by omega))
    · exact accept_none_of_not_magic _ o hm
  unfold dump
  rw [dump_loop_skip_to _ 0 _ 0 pre.length rfl (Nat.zero_le _)
      (fun o _ h2 => hnone o (by omega)),
    dump_loop_hit _ _ _ _ _ hacc,
    dump_loop_none _ _ _ (fun o h1 => hnone o (by omega))]

/-- Witness of C5 as amended: a minimal class file of version 0.52 after three
bytes and before two, and one with the version bytes `CA FE BA BE` at the end
of the buffer, where the candidate at offset 4 is cut short. -/
theorem dump_minimal_class_witness :
    (dump ([1, 0xCA, 0xFE] ++ minimal_class 0 0 0 52 0 33 0 2 0 0 ++ [0xBA, 0xBE]) =
      [Artifact.mk 0 3 24] ∧
    write_file ([1, 0xCA, 0xFE] ++ minimal_class 0 0 0 52 0 33 0 2 0 0 ++ [0xBA, 0xBE]) 3 24 =
      minimal_class 0 0 0 52 0 33 0 2 0 0) ∧
    (dump ([] ++ minimal_class 0xCA 0xFE 0xBA 0xBE 0 0 0 1 0 0 ++ []) =
      [Artifact.mk 0 0 24] ∧
    write_file ([] ++ minimal_class 0xCA 0xFE 0xBA 0xBE 0 0 0 1 0 0 ++ []) 0 24 =
      minimal_class 0xCA 0xFE 0xBA 0xBE 0 0 0 1 0 0) :=
  ⟨dump_minimal_class 0 0 0 52 0 33 0 2 0 0 [1, 0xCA, 0xFE] [0xBA, 0xBE] (by decide) (by decide)
    (fun h => absurd h.2.2.2 (by decide)),
   dump_minimal_class 0xCA 0xFE 0xBA 0xBE 0 0 0 1 0 0 [] [] (by decide) (by decide)
    (fun _ L c h => by
      rw [show read_class ([] ++ minimal_class 0xCA 0xFE 0xBA 0xBE 0 0 0 1 0 0 ++ []) ([].length + 4)
        = Res.fail 24 from by decide!] at h
      cases h)⟩

/-- C5 as stated fails: with minor version `CA FE` and major version `BA BE`
the magic value occurs a second time, at offset 4 of the class file, and with
four zero bytes after the file `read_class` measures 24 bytes there too, so
`dump` emits two artifacts although `pre` and `post` hold no magic value. -/
theorem dump_minimal_class_version_magic :
    noMagic [] ∧ noMagic [0, 0, 0, 0] ∧
    dump ([] ++ minimal_class 0xCA 0xFE 0xBA 0xBE 0 0 0 1 0 0 ++ [0, 0, 0, 0]) =
      [Artifact.mk 0 0 24, Artifact.mk 1 4 24] :=
  ⟨by decide, by decide, by decide!⟩

theorem forall_magicAt_iff (buf : List u1) (P : Nat → Prop) :
    (∀ o, magicAt buf o → P o) ↔ ∀ o ∈ List.range buf.length, magicAt buf o → P o := by
  constructor
  · intro h o _
    exact h o
  · intro h o hm
    have hb := magicAt_bound buf o hm
    exact h o (List.mem_range.mpr (by omega)) hm

theorem serialize_magic (cf : ClassFile) (h : cf.magic = 0xCAFEBABE) (rest : List u1) :
    magicAt (serialize cf ++ rest) 0 := by
  unfold serialize
  rw [h]
  have e : ser_u4 (0xCAFEBABE : u4).val = [0xCA, 0xFE, 0xBA, 0xBE] := by decide
  rw [e]
  simp [magicAt]

/-- C6, amended: for two well-formed class files `C1` and `C2` that begin with
the magic value and measure at most `MAX_CLASS_SIZE` each, such that `C1 ++ C2`
has no accepted candidate at another offset than 0 and `|C1|` (wherever else
the magic value occurs, `read_class` fails or returns more than
`MAX_CLASS_SIZE`), `dump` on `C1 ++ C2` emits exactly two artifacts: number 0 at
offset 0 with the length and the bytes of `C1`, then number 1 at offset `|C1|`
with the length and the bytes of `C2`. -/
theorem dump_two_classes (cf1 cf2 : ClassFile) (hw1 : cf1.wf) (hw2 : cf2.wf)
    (hm1 : cf1.magic = 0xCAFEBABE) (hm2 : cf2.magic = 0xCAFEBABE)
    (hs1 : (serialize cf1).length ≤ MAX_CLASS_SIZE)
    (hs2 : (serialize cf2).length ≤ MAX_CLASS_SIZE)
    (honly : ∀ o L c, magicAt (serialize cf1 ++ serialize cf2) o →
      read_class (serialize cf1 ++ serialize cf2) o = Res.ok L c → L ≤ MAX_CLASS_SIZE →
      o = 0 ∨ o = (serialize cf1).length) :
    dump (serialize cf1 ++ serialize cf2) =
      [Artifact.mk 0 0 (serialize cf1).length,
        Artifact.mk 1 (serialize cf1).length (serialize cf2).length] ∧
    write_file (serialize cf1 ++ serialize cf2) 0 (serialize cf1).length = serialize cf1 ∧
    write_file (serialize cf1 ++ serialize cf2) (serialize cf1).length
      (serialize cf2).length = serialize cf2 := by
  have hpos : 0 < (serialize cf1).length := by
    rw [serialize_length]
    omega
  have at1 : At (serialize cf1 ++ serialize cf2) 0 (serialize cf1) := by
    have := at_append_middle [] (serialize cf1) (serialize cf2)
    rw [List.nil_append] at this
    exact this
  have at2 : At (serialize cf1 ++ serialize cf2) (serialize cf1).length (serialize cf2) := by
    have := at_append_middle (serialize cf1) (serialize cf2) []
    rw [List.append_nil] at this
    exact this
  have r1 := read_class_serialize cf1 hw1 _ _ at1
  have r2 := read_class_serialize cf2 hw2 _ _ at2
  have g1 : magicAt (serialize cf1 ++ serialize cf2) 0 := serialize_magic cf1 hm1 _
  have g2 : magicAt (serialize cf1 ++ serialize cf2) (serialize cf1).length := by
    have := (magicAt_append_right (serialize cf1) (serialize cf2 ++ []) 0).mpr
      (serialize_magic cf2 hm2 [])
    rw [List.append_nil, Nat.add_zero] at this
    exact this
  have a1 := accept_of_read_class _ _ _ _ g1 r1 hs1
  have a2 := accept_of_read_class _ _ _ _ g2 r2 hs2
  have hnone : ∀ o, o ≠ 0 → o ≠ (serialize cf1).length →
      accept (serialize cf1 ++ serialize cf2) o = none := by
    intro o h0 h1
    cases ha : accept (serialize cf1 ++ serialize cf2) o with
    | none => rfl
    | some x =>
      rw [accept_eq_some_iff] at ha
      obtain ⟨_, hm, c, hr, hL⟩ := ha
      rcases honly o _ c hm hr hL with e | e
      · exact absurd e h0
      · exact absurd e h1
  refine ⟨?_, ?_, ?_⟩
  · unfold dump
    rw [dump_loop_hit _ _ _ _ _ a1,
      dump_loop_skip_to _ 1 _ (0 + 1) (serialize cf1).length rfl (by omega)
        (fun o h1 h2 => hnone o (by omega) (by omega)),
      dump_loop_hit _ _ _ _ _ a2,
      dump_loop_none _ _ _ (fun o h1 => hnone o (by omega) (by omega))]
  · have := write_file_middle [] (serialize cf1) (serialize cf2)
    rw [List.nil_append] at this
    exact this
  · have := write_file_middle (serialize cf1) (serialize cf2) []
    rw [List.append_nil] at this
    exact this

/-- Witness of C6 as amended: the sample class file of 76 bytes followed by
the minimal class file. -/
theorem dump_two_classes_witness :
    dump (serialize sample_class ++ serialize plain_class) =
      [Artifact.mk 0 0 76, Artifact.mk 1 76 24] ∧
    write_file (serialize sample_class ++ serialize plain_class) 0 76 =
      serialize sample_class ∧
    write_file (serialize sample_class ++ serialize plain_class) 76 24 =
      serialize plain_class :=
  dump_two_classes sample_class plain_class (by decide) (by decide) rfl rfl (by decide)
    (by decide)
    (fun o _ _ hm _ _ => (forall_magicAt_iff _ (fun o => o = 0 ∨ o = 76)).mpr (by decide!) o hm)

/-- C6 as stated fails: `nested_class` and `plain_class` are well-formed class
files of 54 and 24 bytes, and `dump` on the one followed by the other emits
three artifacts, the second being the class file that is the body of the
attribute of `nested_class`. -/
theorem dump_two_classes_nested :
    nested_class.wf ∧ plain_class.wf ∧
    nested_class.magic = 0xCAFEBABE ∧ plain_class.magic = 0xCAFEBABE ∧
    (serialize nested_class).length = 54 ∧ (serialize plain_class).length = 24 ∧
    dump (serialize nested_class ++ serialize plain_class) =
      [Artifact.mk 0 0 54, Artifact.mk 1 30 24, Artifact.mk 2 54 24] :=
  ⟨by decide, by decide, rfl, rfl, by decide, by decide, by decide!⟩

theorem read_cp_info_fixed (tag : u1) (sz : Nat) (h1 : tag ≠ 1) (h2 : tag.val < 21)
    (h3 : sizes.getD tag.val 0 = sz) (h4 : sz ≠ 0) (buf : List u1) (p : Nat) :
    read_cp_info buf p tag = Res.ok sz (p + sz) := by
  rw [read_cp_info_ok_iff]
  right
  rw [h3]
  exact ⟨h1, h2, h4, rfl, rfl⟩

/-- C11, amended: for every tag other than 1 that has a size in the table,
`read_cp_info` returns that size and advances the cursor by it, from any
cursor: 4 for the tags 3, 4, 9, 10, 11, 12, 17, 18; 8 for 5, 6; 2 for 7, 8, 16,
19, 20; 3 for 15. -/
theorem read_cp_info_fixed_sizes (buf : List u1) (p : Nat) :
    (∀ tag : u1, tag ∈ [3, 4, 9, 10, 11, 12, 17, 18] →
      read_cp_info buf p tag = Res.ok 4 (p + 4)) ∧
    (∀ tag : u1, tag ∈ [5, 6] → read_cp_info buf p tag = Res.ok 8 (p + 8)) ∧
    (∀ tag : u1, tag ∈ [7, 8, 16, 19, 20] → read_cp_info buf p tag = Res.ok 2 (p + 2)) ∧
    read_cp_info buf p 15 = Res.ok 3 (p + 3) ∧
    (∀ tag : u1, tag ≠ 1 → tag.val < 21 → sizes.getD tag.val 0 ≠ 0 →
      tag ∈ [3, 4, 5, 6, 7, 8, 9, 10, 11, 12, 15, 16, 17, 18, 19, 20]) := by
  refine ⟨?_, ?_, ?_, ?_, ?_⟩
  · intro tag ht
    simp only [List.mem_cons, List.mem_singleton, List.not_mem_nil, or_false] at ht
    rcases ht with rfl | rfl | rfl | rfl | rfl | rfl | rfl | rfl <;>
      exact read_cp_info_fixed _ 4 (by decide) (by decide) (by decide) (by decide) buf p
  · intro tag ht
    simp only [List.mem_cons, List.mem_singleton, List.not_mem_nil, or_false] at ht
    rcases ht with rfl | rfl <;>
      exact read_cp_info_fixed _ 8 (by decide) (by decide) (by decide) (by decide) buf p
  · intro tag ht
    simp only [List.mem_cons, List.mem_singleton, List.not_mem_nil, or_false] at ht
    rcases ht with rfl | rfl | rfl | rfl | rfl <;>
      exact read_cp_info_fixed _ 2 (by decide) (by decide) (by decide) (by decide) buf p
  · exact read_cp_info_fixed _ 3 (by decide) (by decide) (by decide) (by decide) buf p
  · decide!

/-- C11 as stated fails at tag 16 (`CONSTANT_MethodType`): the table of
`read_cp_info` gives it 2 bytes, not 4. -/
theorem read_cp_info_tag_16 :
    read_cp_info [] 0 16 = Res.ok 2 2 ∧ read_cp_info [] 0 16 ≠ Res.ok 4 4 :=
  ⟨by decide, by decide⟩

/-- C12: for tag 1 and a cursor `p` with `p + 2 ≤ len`, `read_cp_info` returns
`2 + n` and leaves the cursor at `p + 2 + n`, where `n` is the 16-bit value of
the bytes at `p` and `p + 1`, the first being the high-order byte. -/
theorem read_cp_info_utf8 (buf : List u1) (p : Nat) (h : p + 2 ≤ buf.length) :
    read_cp_info buf p 1 = Res.ok (2 + be16 buf p) (p + 2 + be16 buf p) ∧
    be16 buf p = (buf.getD p 0).val * 256 + (buf.getD (p + 1) 0).val := by
  refine ⟨?_, rfl⟩
  rw [read_cp_info_eq, if_pos rfl, if_pos h]

/-- Witness of C12: the entry `"ABC"` after one foreign byte. -/
theorem read_cp_info_utf8_witness :
    read_cp_info [9, 0, 3, 65, 66, 67] 1 1 = Res.ok 5 6 :=
  (read_cp_info_utf8 [9, 0, 3, 65, 66, 67] 1 (by decide)).1

theorem sizes_zero_iff :
    ∀ tag : u1, tag ≠ 1 →
      ((21 ≤ tag.val ∨ sizes.getD tag.val 0 = 0) ↔
        (20 < tag.val ∨ tag = 0 ∨ tag = 2 ∨ tag = 13 ∨ tag = 14)) := by
  decide!

theorem read_cp_info_fail_iff (buf : List u1) (p : Nat) (tag : u1) (c : Nat) :
    read_cp_info buf p tag = Res.fail c ↔
      c = p ∧ ((tag = 1 ∧ buf.length < p + 2) ∨
        (tag ≠ 1 ∧ (21 ≤ tag.val ∨ sizes.getD tag.val 0 = 0))) := by
  rw [read_cp_info_eq]
  by_cases h1 : tag = 1
  · rw [if_pos h1]
    by_cases h : p + 2 ≤ buf.length
    · rw [if_pos h]
      constructor
      · intro e
        cases e
      · rintro ⟨_, (⟨_, h2⟩ | ⟨h2, _⟩)⟩
        · omega
        · exact absurd h1 h2
    · rw [if_neg h]
      constructor
      · intro e
        cases e
        exact ⟨rfl, Or.inl ⟨h1, by omega⟩⟩
      · rintro ⟨rfl, _⟩
        rfl
  · rw [if_neg h1]
    by_cases h : 21 ≤ tag.val ∨ sizes.getD tag.val 0 = 0
    · rw [if_pos h]
      constructor
      · intro e
        cases e
        exact ⟨rfl, Or.inr ⟨h1, h⟩⟩
      · rintro ⟨rfl, _⟩
        rfl
    · rw [if_neg h]
      constructor
      · intro e
        cases e
      · rintro ⟨_, (⟨h2, _⟩ | ⟨_, h2⟩)⟩
        · exact absurd h2 h1
        · exact absurd h2 h

theorem pool_state_loop (buf : List u1) (cpc : u2) (start : Nat) (i : u2) (q : Nat)
    (h : PoolState buf cpc start i q) :
    constant_pool_loop buf cpc 0 start = constant_pool_loop buf cpc i q := by
  induction h with
  | first => rfl
  | next i p v p2 _ hi hp hr ih =>
    rw [ih, constant_pool_loop_step buf cpc i p hi, read_u1_eq, if_pos hp]
    simp only [Res.bind, hr]

theorem constant_pool_loop_entry_fail (buf : List u1) (cpc i : u2) (q c : Nat)
    (hi : i.val + 1 < cpc.val) (hq : q + 1 ≤ buf.length)
    (hr : read_cp_info buf (q + 1) (buf.getD q 0) = Res.fail c) :
    constant_pool_loop buf cpc i q = Res.fail c := by
  rw [constant_pool_loop_step buf cpc i q hi, read_u1_eq, if_pos hq]
  simp only [Res.bind, hr]

theorem read_class_pool_fail (buf : List u1) (o c : Nat) (hl : o + 10 ≤ buf.length)
    (hz : be16 buf (o + 8) ≠ 0)
    (h : constant_pool_loop buf (Fin.ofNat (be16 buf (o + 8))) 0 (o + 10) = Res.fail c) :
    read_class buf o = Res.fail c := by
  unfold read_class
  have hz2 : ¬ ((Fin.ofNat (be16 buf (o + 8)) : u2) = 0) := by
    intro h0
    apply hz
    have := congrArg Fin.val h0
    rw [u2_ofNat_val _ (be16_lt buf _)] at this
    exact this
  simp only [read_u2_eq, if_pos hl, Res.bind, if_neg hz2, h]

/-- C13: `read_cp_info` fails exactly when, for a tag other than 1, the tag is
above 20 or is one of 0, 2, 13, 14, and for tag 1, the two bytes of the length
do not fit the buffer; a failure leaves the cursor where it was; and when the
entry of any turn of the constant-pool loop fails in this way, `read_class`
fails for the candidate. -/
theorem read_cp_info_failure (buf : List u1) :
    (∀ p tag, (∃ c, read_cp_info buf p tag = Res.fail c) ↔
      ((tag ≠ 1 ∧ (20 < tag.val ∨ tag = 0 ∨ tag = 2 ∨ tag = 13 ∨ tag = 14)) ∨
        (tag = 1 ∧ buf.length < p + 2))) ∧
    (∀ p tag c, read_cp_info buf p tag = Res.fail c → c = p) ∧
    (∀ o i q c, o + 10 ≤ buf.length →
      PoolState buf (Fin.ofNat (be16 buf (o + 8))) (o + 10) i q →
      i.val + 1 < be16 buf (o + 8) → q + 1 ≤ buf.length →
      read_cp_info buf (q + 1) (buf.getD q 0) = Res.fail c →
      read_class buf o = Res.fail c) := by
  refine ⟨?_, ?_, ?_⟩
  · intro p tag
    constructor
    · rintro ⟨c, hc⟩
      rw [read_cp_info_fail_iff] at hc
      rcases hc.2 with ⟨h1, h2⟩ | ⟨h1, h2⟩
      · exact Or.inr ⟨h1, h2⟩
      · exact Or.inl ⟨h1, (sizes_zero_iff tag h1).mp h2⟩
    · rintro (⟨h1, h2⟩ | ⟨h1, h2⟩)
      · exact ⟨p, (read_cp_info_fail_iff buf p tag p).mpr
          ⟨rfl, Or.inr ⟨h1, (sizes_zero_iff tag h1).mpr h2⟩⟩⟩
      · exact ⟨p, (read_cp_info_fail_iff buf p tag p).mpr ⟨rfl, Or.inl ⟨h1, h2⟩⟩⟩
  · intro p tag c hc
    rw [read_cp_info_fail_iff] at hc
    exact hc.1
  · intro o i q c hl hs hi hq hr
    have hv := u2_ofNat_val _ (be16_lt buf (o + 8))
    have hz : be16 buf (o + 8) ≠ 0 := by omega
    apply read_class_pool_fail buf o c hl hz
    rw [pool_state_loop buf _ _ i q hs]
    exact constant_pool_loop_entry_fail buf _ i q c (by rw [hv]; exact hi) hq hr

/-- Instance of C13: in `bad_tag_class` the second turn of the constant-pool
loop, at cursor 14, meets the tag 2, and `read_class` fails with the cursor
left after the tag byte. -/
theorem read_cp_info_failure_witness : read_class bad_tag_class 0 = Res.fail 15 :=
  (read_cp_info_failure bad_tag_class).2.2 0 1 14 15 (by decide)
    (PoolState.next 0 10 3 14 PoolState.first (by decide) (by decide) (by decide))
    (by decide) (by decide) (by decide)

/-- C14, amended: `read_attribute_info` either returns `6 + n` and leaves the
cursor at `p + 6 + n`, `n` being the 32-bit value at `p + 2 .. p + 5`, or
fails; it fails whenever the six bytes of name index and length do not fit the
buffer; and when it returns with the cursor beyond the buffer end, each
bounds-checked read that follows fails. -/
theorem read_attribute_info_outcome (buf : List u1) (p : Nat) :
    (read_attribute_info buf p =
        Res.ok (6 + be32 buf (p + 2)) (p + 6 + be32 buf (p + 2)) ∨
      ∃ c, read_attribute_info buf p = Res.fail c) ∧
    (buf.length < p + 6 → read_attribute_info buf p = Res.fail (p + 2)) ∧
    (∀ v c, read_attribute_info buf p = Res.ok v c → buf.length < c →
      read_u1 buf c = Res.fail c ∧ read_u2 buf c = Res.fail c ∧ read_u4 buf c = Res.fail c ∧
        read_attribute_info buf c = Res.fail (c + 2)) := by
  refine ⟨?_, ?_, ?_⟩
  · rw [read_attribute_info_eq]
    by_cases h : p + 6 ≤ buf.length
    · rw [if_pos h]
      exact Or.inl rfl
    · rw [if_neg h]
      exact Or.inr ⟨p + 2, rfl⟩
  · intro h
    rw [read_attribute_info_eq, if_neg (by omega)]
  · intro v c _ hc
    refine ⟨?_, ?_, ?_, ?_⟩
    · rw [read_u1_eq, if_neg (by omega)]
    · rw [read_u2_eq, if_neg (by omega)]
    · rw [read_u4_eq, if_neg (by omega)]
    · rw [read_attribute_info_eq, if_neg (by omega)]

/-- Instance of C14 as amended: an attribute of declared length 2 in a buffer
that holds its first six bytes only, and the same without its last byte. -/
theorem read_attribute_info_outcome_witness :
    read_u2 [0, 1, 0, 0, 0, 2] 8 = Res.fail 8 ∧
      read_attribute_info [0, 1, 0, 0, 0] 0 = Res.fail 2 :=
  ⟨((read_attribute_info_outcome [0, 1, 0, 0, 0, 2] 0).2.2 8 8 (by decide) (by decide)).2.1,
    (read_attribute_info_outcome [0, 1, 0, 0, 0] 0).2.1 (by decide)⟩

/-- C14 as stated fails: on the six bytes of an attribute that declares a body
of 5 bytes, `p + 6 + n = 11` is past the buffer end, and `read_attribute_info`
returns 11 all the same. -/
theorem read_attribute_info_past_end :
    ([0, 0, 0, 0, 0, 5] : List u1).length = 6 ∧
      read_attribute_info [0, 0, 0, 0, 0, 5] 0 = Res.ok 11 11 :=
  ⟨rfl, by decide⟩

theorem iter_attributes_sum (buf : List u1) :
    ∀ (k p : Nat),
      (∀ s, attributes_sum buf k p = some s →
        iter (read_attribute_info buf) k p = Res.ok () (p + s)) ∧
      (attributes_sum buf k p = none → ∃ c, iter (read_attribute_info buf) k p = Res.fail c) := by
  intro k
  induction k with
  | zero =>
    intro p
    constructor
    · intro s hs
      cases hs
      rfl
    · intro h
      cases h
  | succ k ih =>
    intro p
    simp only [attributes_sum, iter]
    cases hr : read_attribute_info buf p with
    | ok v c =>
      have hv := (read_attribute_info_ok_iff buf p v c).mp hr
      simp only []
      cases hs : attributes_sum buf k c with
      | some s =>
        constructor
        · intro s2 e
          cases e
          rw [(ih c).1 s hs]
          congr 1
          omega
        · intro e
          cases e
      | none =>
        constructor
        · intro s2 e
          cases e
        · intro _
          exact (ih c).2 hs
    | fail c =>
      constructor
      · intro s e
        cases e
      · intro _
        exact ⟨c, rfl⟩
    | oob => exact absurd hr (read_attribute_info_ne_oob buf p)

theorem read_field_info_eq (buf : List u1) (p : Nat) :
    read_field_info buf p =
      if p + 8 ≤ buf.length then
        (iter (read_attribute_info buf) (be16 buf (p + 6)) (p + 8)).bind
          fun _ c => Res.ok (c - p) c
      else Res.fail (p + 6) := by
  unfold read_field_info
  simp only [read_u2_eq]
  by_cases h : p + 8 ≤ buf.length
  · have h2 : p + 6 + 2 ≤ buf.length := by omega
    rw [if_pos h2, if_pos h]
    simp only [Res.bind]
    rw [attributes_loop_zero, u2_ofNat_val _ (be16_lt buf _)]
  · have h2 : ¬ p + 6 + 2 ≤ buf.length := by omega
    rw [if_neg h2, if_neg h]
    rfl

/-- C15: `read_field_info` fails if and only if the attribute count at `p + 6`
does not fit the buffer or one of the `k` attributes it walks in sequence
fails, `k` being the 16-bit value at `p + 6`; otherwise it returns 8 plus the
sum of the `k` values `read_attribute_info` returns, and advances the cursor
by that total. -/
theorem read_field_info_outcome (buf : List u1) (p : Nat) :
    ((∃ c, read_field_info buf p = Res.fail c) ↔
      (buf.length < p + 8 ∨ attributes_sum buf (be16 buf (p + 6)) (p + 8) = none)) ∧
    (∀ s, p + 8 ≤ buf.length → attributes_sum buf (be16 buf (p + 6)) (p + 8) = some s →
      read_field_info buf p = Res.ok (8 + s) (p + (8 + s))) ∧
    read_field_info buf p ≠ Res.oob := by
  have key := iter_attributes_sum buf (be16 buf (p + 6)) (p + 8)
  refine ⟨?_, ?_, read_field_info_ne_oob buf p⟩
  · rw [read_field_info_eq]
    by_cases h : p + 8 ≤ buf.length
    · rw [if_pos h]
      cases hs : attributes_sum buf (be16 buf (p + 6)) (p + 8) with
      | some s =>
        rw [key.1 s hs]
        constructor
        · rintro ⟨c, hc⟩
          cases hc
        · rintro (h2 | h2)
          · omega
          · cases h2
      | none =>
        obtain ⟨c, hc⟩ := key.2 hs
        rw [hc]
        constructor
        · intro _
          exact Or.inr rfl
        · intro _
          exact ⟨c, rfl⟩
    · rw [if_neg h]
      constructor
      · intro _
        exact Or.inl (by omega)
      · intro _
        exact ⟨p + 6, rfl⟩
  · intro s h hs
    rw [read_field_info_eq, if_pos h, key.1 s hs]
    simp only [Res.bind]
    congr 1 <;> omega

/-- Instances of C15: a record with two attributes of 6 and 8 bytes, of which
`read_field_info` returns 22, and the same record without its last three
bytes, where the length of the second attribute does not fit the buffer and
`read_field_info` fails. -/
theorem read_field_info_outcome_witness :
    read_field_info [0, 1, 0, 2, 0, 3, 0, 2, 0, 9, 0, 0, 0, 0, 0, 9, 0, 0, 0, 2, 7, 7] 0 =
      Res.ok 22 22 ∧
    (∃ c, read_field_info [0, 1, 0, 2, 0, 3, 0, 2, 0, 9, 0, 0, 0, 0, 0, 9, 0, 0, 0] 0 =
      Res.fail c) :=
  ⟨(read_field_info_outcome
      [0, 1, 0, 2, 0, 3, 0, 2, 0, 9, 0, 0, 0, 0, 0, 9, 0, 0, 0, 2, 7, 7] 0).2.1 14
      (by decide) (by decide),
    (read_field_info_outcome
      [0, 1, 0, 2, 0, 3, 0, 2, 0, 9, 0, 0, 0, 0, 0, 9, 0, 0, 0] 0).1.mpr
      (Or.inr (by decide))⟩

theorem find_next_class_loop_spec (buf : List u1) (s : Nat) :
    ∀ (n p : Nat), buf.length - p = n →
      (∀ r c, find_next_class_loop buf s p = Res.ok r c →
        p ≤ c ∧ r = c - s ∧ magicAt buf c ∧ ∀ j, p ≤ j → j < c → ¬ magicAt buf j) ∧
      (∀ c, find_next_class_loop buf s p = Res.fail c → ∀ j, p ≤ j → ¬ magicAt buf j) := by
  intro n
  induction n using Nat.strong_induction_on with
  | _ n ih =>
    intro p hn
    rw [find_next_class_loop_step]
    by_cases h : p + 4 ≤ buf.length
    · rw [if_pos h]
      by_cases hm : magicAt buf p
      · rw [if_pos hm]
        constructor
        · intro r c e
          cases e
          exact ⟨Nat.le_refl _, rfl, hm, fun j h1 h2 => by omega⟩
        · intro c e
          cases e
      · rw [if_neg hm]
        obtain ⟨i1, i2⟩ := ih _ (by omega) (p + 1) rfl
        constructor
        · intro r c e
          obtain ⟨a1, a2, a3, a4⟩ := i1 r c e
          refine ⟨by omega, a2, a3, ?_⟩
          intro j h1 h2
          by_cases hj : j = p
          · rw [hj]
            exact hm
          · exact a4 j (by omega) h2
        · intro c e j hj
          by_cases hjp : j = p
          · rw [hjp]
            exact hm
          · exact i2 c e j (by omega)
    · rw [if_neg h]
      constructor
      · intro r c e
        cases e
      · intro c _ j hj hmj
        have := magicAt_bound buf j hmj
        omega

/-- C16: `find_next_class` succeeds if and only if the magic value occurs at
some position `q` at or after the start cursor, with `q + 4 ≤ len`; on success
the position `p + r` it reports is the least such `q`, at any alignment; and
when there is none, as in a buffer with fewer than 4 bytes left, it fails. -/
theorem find_next_class_first_match (buf : List u1) (p : Nat) :
    ((∃ r c, find_next_class buf p = Res.ok r c) ↔
      ∃ q, p ≤ q ∧ q + 4 ≤ buf.length ∧ magicAt buf q) ∧
    (∀ r c, find_next_class buf p = Res.ok r c →
      magicAt buf (p + r) ∧ p + r + 4 ≤ buf.length ∧
        ∀ j, p ≤ j → j < p + r → ¬ magicAt buf j) ∧
    ((¬ ∃ q, p ≤ q ∧ q + 4 ≤ buf.length ∧ magicAt buf q) →
      ∃ c, find_next_class buf p = Res.fail c) ∧
    (buf.length < p + 4 → find_next_class buf p = Res.fail p) := by
  obtain ⟨k1, k2⟩ := find_next_class_loop_spec buf p _ p rfl
  have hok : ∀ r c, find_next_class buf p = Res.ok r c →
      magicAt buf (p + r) ∧ p + r + 4 ≤ buf.length ∧
        ∀ j, p ≤ j → j < p + r → ¬ magicAt buf j := by
    intro r c e
    obtain ⟨a1, a2, a3, a4⟩ := k1 r c e
    have e2 : p + r = c := by omega
    rw [e2]
    exact ⟨a3, magicAt_bound buf c a3, a4⟩
  have hnone : (¬ ∃ q, p ≤ q ∧ q + 4 ≤ buf.length ∧ magicAt buf q) →
      ∃ c, find_next_class buf p = Res.fail c := by
    intro hno
    cases hr : find_next_class buf p with
    | ok r c =>
      obtain ⟨b1, b2, _⟩ := hok r c hr
      exact absurd ⟨p + r, by omega, b2, b1⟩ hno
    | fail c => exact ⟨c, rfl⟩
    | oob => exact absurd hr (find_next_class_ne_oob buf p)
  refine ⟨?_, hok, hnone, ?_⟩
  · constructor
    · rintro ⟨r, c, e⟩
      obtain ⟨b1, b2, _⟩ := hok r c e
      exact ⟨p + r, by omega, b2, b1⟩
    · rintro ⟨q, hq, _, hm⟩
      cases hr : find_next_class buf p with
      | ok r c => exact ⟨r, c, rfl⟩
      | fail c => exact absurd hm (k2 c hr q hq)
      | oob => exact absurd hr (find_next_class_ne_oob buf p)
  · intro h
    unfold find_next_class
    rw [find_next_class_loop_step, if_neg (by omega)]

/-- Instances of C16: the magic value at offset 5 is found from the cursors 0
and 5 and no longer from the cursor 6. -/
theorem find_next_class_first_match_witness :
    (∃ r c, find_next_class [1, 0xCA, 0xFE, 0xBA, 2, 0xCA, 0xFE, 0xBA, 0xBE, 3] 0 =
      Res.ok r c) ∧
    (∃ c, find_next_class [1, 0xCA, 0xFE, 0xBA, 2, 0xCA, 0xFE, 0xBA, 0xBE, 3] 6 = Res.fail c) :=
  ⟨(find_next_class_first_match [1, 0xCA, 0xFE, 0xBA, 2, 0xCA, 0xFE, 0xBA, 0xBE, 3] 0).1.mpr
      ⟨5, by decide, by decide, by decide⟩,
    (find_next_class_first_match [1, 0xCA, 0xFE, 0xBA, 2, 0xCA, 0xFE, 0xBA, 0xBE, 3] 6).2.2.1
      (by
        rintro ⟨q, h1, h2, hm⟩
        have hq : q = 6 := by
          simp only [List.length_cons, List.length_nil] at h2
          omega
        rw [hq] at hm
        exact absurd hm (by decide))⟩

/-- C17, amended: when `find_next_class` finds a match it returns the offset
`r` of the first magic byte from the start cursor and leaves the cursor on that
byte, at `q = p + r`, having stepped back the 4 bytes it read; `dump` hands this
cursor to `read_class` as it is and goes on from `q + 1`. -/
theorem find_next_class_cursor (buf : List u1) (p r c : Nat)
    (h : find_next_class buf p = Res.ok r c) :
    c = p + r ∧ magicAt buf c ∧
    ∀ num, dump_loop buf p num =
      match read_class buf c with
      | Res.ok class_size _ =>
        if class_size ≤ MAX_CLASS_SIZE then
          Artifact.mk num c class_size :: dump_loop buf (c + 1) (num + 1)
        else dump_loop buf (c + 1) num
      | Res.fail _ => dump_loop buf (c + 1) num
      | Res.oob => [] := by
  obtain ⟨a1, a2, a3, _⟩ := (find_next_class_loop_spec buf p _ p rfl).1 r c h
  refine ⟨by omega, a3, ?_⟩
  intro num
  exact dump_loop_of_find buf p num _ h

/-- Witness of C17 as amended: the minimal class file after one byte is found
with the cursor left at offset 1. -/
theorem find_next_class_cursor_witness :
    find_next_class (9 :: minimal) 0 = Res.ok 1 1 ∧ magicAt (9 :: minimal) 1 :=
  ⟨by decide!, (find_next_class_cursor (9 :: minimal) 0 1 1 (by decide!)).2.1⟩

/-- C17 as stated fails: the match at `q = 1` leaves the cursor at 1, not at
`q + 4 = 5`. -/
theorem find_next_class_cursor_at_match :
    magicAt (9 :: minimal) 1 ∧ find_next_class (9 :: minimal) 0 = Res.ok 1 1 ∧
      find_next_class (9 :: minimal) 0 ≠ Res.ok 1 5 :=
  ⟨by decide, by decide!, by decide!⟩

/-- C19: extension invariance of `read_class`.  When `read_class` returns `L`
at `o` on `buf`, it returns `L` at `o` on `buf ++ ext` for every `ext`, and
more generally on every buffer that has the bytes of `buf` at the indices from
`o` up to `min (o + L) len`: the result depends on the bytes of the candidate
only. -/
theorem read_class_extension (buf : List u1) (o L c : Nat)
    (h : read_class buf o = Res.ok L c) :
    (∀ ext, read_class (buf ++ ext) o = Res.ok L c) ∧
    (∀ buf2 : List u1, (∀ j, o ≤ j → j < min (o + L) buf.length → buf2[j]? = buf[j]?) →
      read_class buf2 o = Res.ok L c) := by
  obtain ⟨_, hc⟩ := read_class_lower_bound buf o L c h
  obtain ⟨_, hf⟩ := framed_read_class buf o L c h
  have e : c - o = L := by omega
  rw [e] at hf
  have gen : ∀ buf2 : List u1,
      (∀ j, o ≤ j → j < min (o + L) buf.length → buf2[j]? = buf[j]?) →
      read_class buf2 o = Res.ok L c := by
    intro buf2 hag
    rw [hc]
    apply hf buf2 o
    intro j hj hp
    exact hag (o + j) (by omega) (by omega)
  refine ⟨?_, gen⟩
  intro ext
  apply gen
  intro j _ hj
  exact List.getElem?_append_left (by omega)

/-- Witness of C19: the buffer `truncated`, measured at 35 bytes, and the same
buffer followed by three bytes. -/
theorem read_class_extension_witness :
    read_class truncated 0 = Res.ok 35 35 ∧
      read_class (truncated ++ [1, 2, 3]) 0 = Res.ok 35 35 :=
  ⟨by decide!, (read_class_extension truncated 0 35 35 (by decide!)).1 [1, 2, 3]⟩

theorem iter_attributes_last (buf : List u1) :
    ∀ (n p c : Nat), iter (read_attribute_info buf) (n + 1) p = Res.ok () c →
      ∃ q, p ≤ q ∧ q + 6 ≤ buf.length ∧ c = q + 6 + be32 buf (q + 2) := by
  intro n
  induction n with
  | zero =>
    intro p c h
    simp only [iter] at h
    cases hr : read_attribute_info buf p with
    | ok v c1 =>
      rw [hr] at h
      cases h
      rw [read_attribute_info_ok_iff] at hr
      exact ⟨p, Nat.le_refl _, hr.1, hr.2.2⟩
    | fail c1 =>
      rw [hr] at h
      cases h
    | oob =>
      rw [hr] at h
      cases h
  | succ n ih =>
    intro p c h
    rw [iter] at h
    cases hr : read_attribute_info buf p with
    | ok v c1 =>
      rw [hr] at h
      obtain ⟨q, h1, h2, h3⟩ := ih c1 c h
      rw [read_attribute_info_ok_iff] at hr
      exact ⟨q, by omega, h2, h3⟩
    | fail c1 =>
      rw [hr] at h
      cases h
    | oob =>
      rw [hr] at h
      cases h

/-- C20: when `read_class` returns `L` at `o`, the walk has read the constant
pool up to `c1`, the fields up to `c3`, the methods up to `c4` and the count of
class attributes at `c4`, all inside the buffer.  If that count is 0 then
`o + L ≤ len`; otherwise the last class attribute begins at some `q` whose six
bytes of name index and length lie inside the buffer, and `o + L` is the end
`q + 6 + n` of its body: only bytes of that body can lie beyond the buffer
end. -/
theorem read_class_overrun_last_attribute (buf : List u1) (o L c : Nat)
    (h : read_class buf o = Res.ok L c) :
    ∃ c1 c2 c3 c4,
      constant_pool_loop buf (Fin.ofNat (be16 buf (o + 8))) 0 (o + 10) = Res.ok () c1 ∧
      c2 = c1 + 8 + 2 * be16 buf (c1 + 6) ∧
      iter (read_field_info buf) (be16 buf c2) (c2 + 2) = Res.ok () c3 ∧
      iter (read_field_info buf) (be16 buf c3) (c3 + 2) = Res.ok () c4 ∧
      iter (read_attribute_info buf) (be16 buf c4) (c4 + 2) = Res.ok () (o + L) ∧
      c1 + 8 ≤ buf.length ∧ c2 + 2 ≤ buf.length ∧ c3 + 2 ≤ buf.length ∧
      c4 + 2 ≤ buf.length ∧
      (be16 buf c4 = 0 → o + L ≤ buf.length) ∧
      (0 < be16 buf c4 →
        ∃ q, c4 + 2 ≤ q ∧ q + 6 ≤ buf.length ∧ o + L = q + 6 + be32 buf (q + 2)) := by
  obtain ⟨_, hc⟩ := read_class_lower_bound buf o L c h
  rw [read_class_ok_iff] at h
  obtain ⟨c1, c2, c3, c4, h1, hz, hcp, h2, e2, h3, hf, h4, hm, h5, ha, _⟩ := h
  rw [hc] at ha
  refine ⟨c1, c2, c3, c4, hcp, e2, hf, hm, ha, h2, h3, h4, h5, ?_, ?_⟩
  · intro h0
    rw [h0, iter_zero] at ha
    have e := (Res.ok.inj ha).2
    omega
  · intro hpos
    obtain ⟨n, hn⟩ : ∃ n, be16 buf c4 = n + 1 := ⟨be16 buf c4 - 1, by omega⟩
    rw [hn] at ha
    exact iter_attributes_last buf n _ _ ha

/-- Witness of C20: on `truncated` the count of class attributes is read at
offset 22, the last attribute begins at 24 with its six bytes inside the 30
bytes of the buffer, and the 35 bytes measured end with its body. -/
theorem read_class_overrun_last_attribute_witness :
    ∃ c1 c2 c3 c4,
      constant_pool_loop truncated (Fin.ofNat (be16 truncated (0 + 8))) 0 (0 + 10) =
        Res.ok () c1 ∧
      c2 = c1 + 8 + 2 * be16 truncated (c1 + 6) ∧
      iter (read_field_info truncated) (be16 truncated c2) (c2 + 2) = Res.ok () c3 ∧
      iter (read_field_info truncated) (be16 truncated c3) (c3 + 2) = Res.ok () c4 ∧
      iter (read_attribute_info truncated) (be16 truncated c4) (c4 + 2) = Res.ok () (0 + 35) ∧
      c1 + 8 ≤ truncated.length ∧ c2 + 2 ≤ truncated.length ∧ c3 + 2 ≤ truncated.length ∧
      c4 + 2 ≤ truncated.length ∧
      (be16 truncated c4 = 0 → 0 + 35 ≤ truncated.length) ∧
      (0 < be16 truncated c4 →
        ∃ q, c4 + 2 ≤ q ∧ q + 6 ≤ truncated.length ∧
          0 + 35 = q + 6 + be32 truncated (q + 2)) :=
  read_class_overrun_last_attribute truncated 0 35 35 (by decide!)

theorem attributes_loop_turns_le (buf : List u1) (count : u2) :
    ∀ (n : Nat) (i : u2) (p : Nat), count.val - i.val = n →
      attributes_loop_turns buf count i p ≤ count.val - i.val := by
  intro n
  induction n with
  | zero =>
    intro i p h
    rw [attributes_loop_turns]
    have : ¬ i < count := by
      rw [Fin.lt_def]
      omega
    rw [if_neg this]
    omega
  | succ n ih =>
    intro i p h
    rw [attributes_loop_turns]
    have hlt : i < count := by
      rw [Fin.lt_def]
      omega
    rw [if_pos hlt]
    have hs := u2_val_add_one i count hlt
    have hlt2 : i.val < count.val := hlt
    cases hr : read_attribute_info buf p with
    | ok v c =>
      have := ih (i + 1) c (by omega)
      simp only []
      omega
    | fail c =>
      simp only []
      omega
    | oob =>
      simp only []
      omega

theorem fields_loop_turns_le (buf : List u1) (count : u2) :
    ∀ (n : Nat) (j : u2) (p : Nat), count.val - j.val = n →
      fields_loop_turns buf count j p ≤ count.val - j.val := by
  intro n
  induction n with
  | zero =>
    intro j p h
    rw [fields_loop_turns]
    have : ¬ j < count := by
      rw [Fin.lt_def]
      omega
    rw [if_neg this]
    omega
  | succ n ih =>
    intro j p h
    rw [fields_loop_turns]
    have hlt : j < count := by
      rw [Fin.lt_def]
      omega
    rw [if_pos hlt]
    have hs := u2_val_add_one j count hlt
    have hlt2 : j.val < count.val := hlt
    cases hr : read_field_info buf p with
    | ok v c =>
      have := ih (j + 1) c (by omega)
      simp only []
      omega
    | fail c =>
      simp only []
      omega
    | oob =>
      simp only []
      omega

theorem constant_pool_loop_turns_le (buf : List u1) (cpc : u2) :
    ∀ (n : Nat) (i : u2) (p : Nat), cpc.val - i.val = n →
      constant_pool_loop_turns buf cpc i p ≤ cpc.val - 1 - i.val := by
  intro n
  induction n using Nat.strong_induction_on with
  | _ n ih =>
    intro i p hn
    rw [constant_pool_loop_turns]
    by_cases hc : i.val + 1 < cpc.val
    · have hc2 : (i.val : Int) < (cpc.val : Int) - 1 := by omega
      rw [if_pos hc2]
      cases h1 : read_u1 buf p with
      | ok tag c1 =>
        simp only []
        cases h2 : read_cp_info buf c1 tag with
        | ok v c2 =>
          simp only []
          have hi := cp_index_next cpc i tag hc
          have hs : 1 ≤ slots tag := by
            unfold slots
            split <;> omega
          have := ih _ (by omega) (i + (if tag = 5 ∨ tag = 6 then 1 else 0) + 1) c2 rfl
          omega
        | fail c2 =>
          simp only []
          omega
        | oob =>
          simp only []
          omega
      | fail c1 =>
        simp only []
        omega
      | oob =>
        simp only []
        omega
    · have hc2 : ¬ ((i.val : Int) < (cpc.val : Int) - 1) := by omega
      rw [if_neg hc2]
      omega

theorem dump_measured_of_find (buf : List u1) (p : Nat) (r : Res Nat)
    (h : find_next_class buf p = r) :
    dump_measured buf p =
      match r with
      | Res.ok _ data1 => data1 :: dump_measured buf (data1 + 1)
      | Res.fail _ => []
      | Res.oob => [] := by
  rw [dump_measured]
  cases r with
  | ok v c =>
    split
    · rename_i heq
      rw [h] at heq
      cases heq
      rfl
    · rename_i heq
      rw [h] at heq
      cases heq
    · rename_i heq
      rw [h] at heq
      cases heq
  | fail c =>
    split
    · rename_i heq
      rw [h] at heq
      cases heq
    · rfl
    · rfl
  | oob =>
    split
    · rename_i heq
      rw [h] at heq
      cases heq
    · rfl
    · rfl

theorem dump_measured_end (buf : List u1) (p : Nat) (h : ¬ p + 4 ≤ buf.length) :
    dump_measured buf p = [] := by
  rw [dump_measured_of_find buf p (Res.fail p)]
  unfold find_next_class
  rw [find_next_class_loop_step, if_neg h]

theorem dump_measured_match (buf : List u1) (p : Nat) (hm : magicAt buf p) :
    dump_measured buf p = p :: dump_measured buf (p + 1) := by
  have h := magicAt_bound buf p hm
  rw [dump_measured_of_find buf p (Res.ok (p - p) p)]
  unfold find_next_class
  rw [find_next_class_loop_step, if_pos h, if_pos hm]

theorem dump_measured_skip (buf : List u1) (p : Nat) (h : p + 4 ≤ buf.length)
    (hm : ¬ magicAt buf p) : dump_measured buf p = dump_measured buf (p + 1) := by
  have e : find_next_class buf p = find_next_class_loop buf p (p + 1) := by
    unfold find_next_class
    rw [find_next_class_loop_step, if_pos h, if_neg hm]
  have key := find_next_class_cur buf p (p + 1) _ (p + 1) rfl
  cases hr : find_next_class_loop buf p (p + 1) with
  | ok r c =>
    rw [dump_measured_of_find buf p _ (e.trans hr),
      dump_measured_of_find buf (p + 1) _ (key.1 r c hr)]
  | fail c =>
    rw [dump_measured_of_find buf p _ (e.trans hr),
      dump_measured_of_find buf (p + 1) _ (key.2 c hr)]
  | oob => exact absurd hr (find_next_class_loop_ne_oob buf p _ (p + 1) rfl)

theorem dump_measured_eq (buf : List u1) :
    ∀ (n p : Nat), buf.length - 3 - p = n →
      dump_measured buf p = (List.range' p n).filter (fun o => decide (magicAt buf o)) := by
  intro n
  induction n with
  | zero =>
    intro p hn
    rw [dump_measured_end buf p (by omega)]
    rfl
  | succ n ih =>
    intro p hn
    rw [List.range'_succ, List.filter_cons]
    by_cases hm : magicAt buf p
    · rw [dump_measured_match buf p hm, if_pos (decide_eq_true hm), ih (p + 1) (by omega)]
    · rw [dump_measured_skip buf p (by omega) hm, if_neg (by simpa using hm),
        ih (p + 1) (by omega)]

theorem find_next_class_ok_bound (buf : List u1) (p r c : Nat)
    (h : find_next_class buf p = Res.ok r c) : p ≤ c ∧ c + 4 ≤ buf.length := by
  obtain ⟨a1, _, a3, _⟩ := (find_next_class_loop_spec buf p _ p rfl).1 r c h
  exact ⟨a1, magicAt_bound buf c a3⟩

theorem candidates_length_le (buf : List u1) :
    ∀ (l : List Nat), (l.filterMap (accept buf)).length ≤
      (l.filter (fun o => decide (magicAt buf o))).length := by
  intro l
  induction l with
  | nil => exact Nat.le_refl _
  | cons o rest ih =>
    rw [List.filterMap_cons, List.filter_cons]
    by_cases hm : magicAt buf o
    · rw [if_pos (decide_eq_true hm)]
      cases accept buf o with
      | none =>
        simp only [List.length_cons]
        omega
      | some x =>
        simp only [List.length_cons]
        omega
    · rw [accept_none_of_not_magic buf o hm, if_neg (by simpa using hm)]
      exact ih

/-- C18: `dump` and `read_class` are total, and the quantities that bound
their loops are these.  A probe of `find_next_class` that does not match moves
the cursor forward by exactly 1; after a match at `c`, found from `p ≤ c`,
`dump` measures `c` and goes on from `c + 1 ≤ len`, so its scan position
strictly increases; the loops over attributes and over fields or methods make
at most `count ≤ 65535` turns; the constant-pool counter grows by 1 or 2 in
each turn without wrapping, so that loop makes at most 65534 turns; and the
offsets `dump` measures are the occurrences of the magic value, at most
`len - 3` of them. -/
theorem dump_terminates (buf : List u1) :
    (∀ s p, p + 4 ≤ buf.length → ¬ magicAt buf p →
      find_next_class_loop buf s p = find_next_class_loop buf s (p + 1)) ∧
    (∀ p r c, find_next_class buf p = Res.ok r c →
      p < c + 1 ∧ c + 1 ≤ buf.length ∧ dump_measured buf p = c :: dump_measured buf (c + 1)) ∧
    (∀ (count i : u2) p,
      attributes_loop_turns buf count i p ≤ count.val - i.val ∧ count.val - i.val ≤ 65535) ∧
    (∀ (count j : u2) p,
      fields_loop_turns buf count j p ≤ count.val - j.val ∧ count.val - j.val ≤ 65535) ∧
    (∀ (cpc i : u2) p,
      constant_pool_loop_turns buf cpc i p ≤ cpc.val - 1 - i.val ∧
        cpc.val - 1 - i.val ≤ 65534) ∧
    (∀ (cpc i : u2) (tag : u1), i.val + 1 < cpc.val →
      (i + (if tag = 5 ∨ tag = 6 then 1 else 0) + 1 : u2).val = i.val + slots tag ∧
        i.val < i.val + slots tag ∧ i.val + slots tag ≤ 65535) ∧
    dump_measured buf 0 =
      (List.range (buf.length - 3)).filter (fun o => decide (magicAt buf o)) ∧
    (dump_measured buf 0).length ≤ buf.length - 3 ∧
    (dump buf).length ≤ (dump_measured buf 0).length := by
  have hm : dump_measured buf 0 =
      (List.range (buf.length - 3)).filter (fun o => decide (magicAt buf o)) := by
    rw [dump_measured_eq buf (buf.length - 3) 0 rfl, List.range_eq_range']
  refine ⟨?_, ?_, ?_, ?_, ?_, ?_, hm, ?_, ?_⟩
  · intro s p h hmg
    rw [find_next_class_loop_step buf s p, if_pos h, if_neg hmg]
  · intro p r c h
    obtain ⟨b1, b2⟩ := find_next_class_ok_bound buf p r c h
    refine ⟨by omega, by omega, ?_⟩
    exact dump_measured_of_find buf p _ h
  · intro count i p
    have := count.isLt
    exact ⟨attributes_loop_turns_le buf count _ i p rfl, by omega⟩
  · intro count j p
    have := count.isLt
    exact ⟨fields_loop_turns_le buf count _ j p rfl, by omega⟩
  · intro cpc i p
    have := cpc.isLt
    exact ⟨constant_pool_loop_turns_le buf cpc _ i p rfl, by omega⟩
  · intro cpc i tag h
    have := cpc.isLt
    have hs : 1 ≤ slots tag ∧ slots tag ≤ 2 := by
      unfold slots
      split <;> omega
    exact ⟨cp_index_next cpc i tag h, by omega, by omega⟩
  · rw [hm]
    calc ((List.range (buf.length - 3)).filter (fun o => decide (magicAt buf o))).length
        ≤ (List.range (buf.length - 3)).length := List.length_filter_le _ _
      _ = buf.length - 3 := List.length_range _
  · rw [hm, dump_eq, number_length]
    exact candidates_length_le buf _

/-- Instance of C18: on the 54 bytes of `truncated ++ minimal` at most 51
offsets are measured, and no more artifacts are emitted than offsets measured. -/
theorem dump_terminates_witness :
    (dump_measured (truncated ++ minimal) 0).length ≤ 51 ∧
      (dump (truncated ++ minimal)).length ≤ (dump_measured (truncated ++ minimal) 0).length :=
  ⟨(dump_terminates (truncated ++ minimal)).2.2.2.2.2.2.2.1,
    (dump_terminates (truncated ++ minimal)).2.2.2.2.2.2.2.2⟩

end JavaClassExtract
